import Mathlib

/-!
# Verification of the butler-api IPAM design

The repository `butlerdotdev/butler-api` defines the data schemas
(`NetworkPool`, `IPAllocation`, provider pool references) for an IPv4
address allocator, together with a design document describing the
allocator's behaviour (free-list tracking, best-fit allocation, pinned
ranges, priority pool selection, allocation lifecycle).

This file embeds the schemas that exist in the source and, for the
allocator core that the repository specifies but does not implement,
models the operations from the design document.  Addresses are unsigned
32-bit integers represented as `Nat`; an address range is an inclusive
interval `[lo, hi]`.
-/

namespace Butler

/-- An inclusive IPv4 address range `[lo, hi]`; addresses are unsigned
32-bit integers represented as naturals. -/
structure IPRange where
  lo : Nat
  hi : Nat
deriving DecidableEq, Repr

namespace IPRange

/-- Number of addresses in the range (0 when the range is inverted). -/
def size (r : IPRange) : Nat := r.hi + 1 - r.lo

/-- A well-formed range has its start not after its end. -/
def WF (r : IPRange) : Prop := r.lo ≤ r.hi

instance (r : IPRange) : Decidable r.WF := by unfold WF; infer_instance

/-- Two ranges are disjoint when they share no address. -/
def Disj (r s : IPRange) : Prop := r.hi < s.lo ∨ s.hi < r.lo

instance (r s : IPRange) : Decidable (Disj r s) := by unfold Disj; infer_instance

end IPRange

/-- `Sep r s` : `r` lies strictly before `s`, not even adjacent
(at least one address gap between them). -/
def Sep (r s : IPRange) : Prop := r.hi + 1 < s.lo

instance (r s : IPRange) : Decidable (Sep r s) := by unfold Sep; infer_instance

/-- Address `x` is covered by some range of the list. -/
def Covers (l : List IPRange) (x : Nat) : Prop := ∃ r ∈ l, r.lo ≤ x ∧ x ≤ r.hi

instance (l : List IPRange) (x : Nat) : Decidable (Covers l x) := by
  unfold Covers; infer_instance

/-- A canonical free list: every range well formed, and the ranges
sorted, pairwise disjoint and non-adjacent (fully coalesced). -/
def Canonical (l : List IPRange) : Prop :=
  (∀ r ∈ l, r.WF) ∧ l.Pairwise Sep

/-! ## FreeListTracker primitives

Modelled from the spec: §4.2 FreeListTracker "maintains, per pool, the
set of free sub-ranges as a sorted, non-overlapping, merged list
(coalescing adjacent free ranges on release)"; `reserve`/`release`
"mutate the free list, splitting or merging ranges as needed". -/
/-- Modelled from the spec: the pieces of a free range `s` that remain
after reserving the addresses of `r` (splitting `s` as needed). -/
def cutRange (s r : IPRange) : List IPRange :=
  (if s.lo < r.lo then [⟨s.lo, min s.hi (r.lo - 1)⟩] else []) ++
  (if r.hi < s.hi then [⟨max s.lo (r.hi + 1), s.hi⟩] else [])

/-- Modelled from the spec: `reserve` removes the addresses of `r` from
the free list, splitting ranges as needed. -/
def removeRange : List IPRange → IPRange → List IPRange
  | [], _ => []
  | s :: rest, r => cutRange s r ++ removeRange rest r

/-- Modelled from the spec: `release` returns the addresses of `r` to
the free list, merging overlapping or adjacent free ranges so the list
stays sorted and fully coalesced. -/
def addRange : List IPRange → IPRange → List IPRange
  | [], r => [r]
  | s :: rest, r =>
    if r.hi + 1 < s.lo then r :: s :: rest
    else if s.hi + 1 < r.lo then s :: addRange rest r
    else addRange rest ⟨min s.lo r.lo, max s.hi r.hi⟩

/-! ## Counting addresses -/
/-- Total number of addresses covered by a list of ranges
(counted with multiplicity unless the list is disjoint). -/
def totalSize (l : List IPRange) : Nat := (l.map IPRange.size).sum

/-- Size of the largest range in the list (0 for the empty list). -/
def largestFree (l : List IPRange) : Nat := (l.map IPRange.size).foldr max 0

/-- The set of addresses covered by a list of ranges. -/
def toFinset (l : List IPRange) : Finset Nat :=
  l.foldr (fun r acc => Finset.Icc r.lo r.hi ∪ acc) ∅

/-! ## FreeListTracker search and metrics -/
/-- Modelled from the spec: `findFit(count)` returns the smallest free
range of size at least `count` (best-fit), ties broken in favour of the
earlier — hence, in a sorted free list, lower-starting — range. -/
def findFit : List IPRange → Nat → Option IPRange
  | [], _ => none
  | r :: rest, count =>
    if count ≤ r.size then
      match findFit rest count with
      | none => some r
      | some b => if b.size < r.size then some b else some r
    else findFit rest count

/-- Modelled from the spec: `metrics()` returns total free space, the
largest contiguous free block, and
`FragmentationPercent = 100 * (1 - largestFreeBlock/totalFree)`
(0 when `totalFree` is 0). -/
def fragmentationPercent (l : List IPRange) : Nat :=
  if totalSize l = 0 then 0
  else (100 * (totalSize l - largestFree l)) / totalSize l

/-- Modelled from the spec: the result record of `metrics()` (§4.2). -/
structure Metrics where
  totalFree : Nat
  largestFreeBlock : Nat
  fragPercent : Nat
deriving DecidableEq, Repr

/-- Modelled from the spec: the `metrics()` operation of the
FreeListTracker. -/
def metrics (l : List IPRange) : Metrics :=
  { totalFree := totalSize l
    largestFreeBlock := largestFree l
    fragPercent := fragmentationPercent l }

/-- Executable containment test: some single free range contains the
whole of `[a, b]`.  On a canonical list this is exactly "every address
of `[a, b]` is free". -/
def rangeSub (a b : Nat) (l : List IPRange) : Bool :=
  l.any fun s => decide (s.lo ≤ a) && decide (b ≤ s.hi)

/-! ## PoolAllocator

Modelled from the spec §4.3: wraps one pool's free list, seeded from
the pool's CIDR minus reserved ranges, narrowed to the tenant-allocation
sub-range when present. -/
/-- Modelled from the spec: the allocation error taxonomy of §7. -/
inductive AllocError where
  | invalidAddress
  | rangeOrder
  | rangeConflict
  | outOfRange
  | insufficientSpace
  | poolExhausted (attempted : List String)
deriving DecidableEq, Repr

/-- Modelled from the spec: one recorded allocation of a pool — its
range and whether it has been released back to the free list. -/
structure Alloc where
  range : IPRange
  released : Bool
deriving DecidableEq, Repr

/-- Modelled from the spec: the bookkeeping state of one
`NetworkPool`: its allocatable space
(CIDR minus reserved, narrowed to the tenant sub-range), the current
free list and the recorded allocations. -/
structure PoolState where
  allocatable : List IPRange
  free : List IPRange
  allocs : List Alloc
deriving DecidableEq, Repr

/-- Modelled from the spec: the ranges of the non-released
allocations. -/
def activeRanges (st : PoolState) : List IPRange :=
  (st.allocs.filter fun a => !a.released).map Alloc.range

/-- Modelled from the spec: `allocate(count)` performs a best-fit
search and reserves the first `count` addresses of the chosen free
range, or fails with `InsufficientSpaceError`. -/
def PoolAllocator.allocate (st : PoolState) (count : Nat) :
    Except AllocError (IPRange × PoolState) :=
  match findFit st.free count with
  | none => .error .insufficientSpace
  | some r =>
    let chosen : IPRange := ⟨r.lo, r.lo + count - 1⟩
    .ok (chosen, { st with free := removeRange st.free chosen,
                           allocs := st.allocs ++ [⟨chosen, false⟩] })

/-- Modelled from the spec: `allocatePinned(startAddress, endAddress)`
validates order (`RangeOrderError`), containment in the allocatable
space (`OutOfRangeError`) and freeness (`RangeConflictError`), then
reserves the exact range. -/
def PoolAllocator.allocatePinned (st : PoolState) (a b : Nat) :
    Except AllocError (IPRange × PoolState) :=
  if b < a then .error .rangeOrder
  else if rangeSub a b st.allocatable = false then .error .outOfRange
  else if rangeSub a b st.free = false then .error .rangeConflict
  else .ok (⟨a, b⟩, { st with free := removeRange st.free ⟨a, b⟩,
                              allocs := st.allocs ++ [⟨⟨a, b⟩, false⟩] })

/-- Modelled from the spec: `release(range)` returns the range to the
free list (idempotent, never an error) and marks the matching recorded
allocation as released. -/
def PoolAllocator.release (st : PoolState) (r : IPRange) : PoolState :=
  { st with free := addRange st.free r,
            allocs := st.allocs.map fun a =>
              if a.range = r then ⟨a.range, true⟩ else a }

/-- Modelled from the spec: remove each of a list of ranges from a
free list in turn (seeding subtracts every reserved range). -/
def removeRanges (l : List IPRange) : List IPRange → List IPRange
  | [] => l
  | r :: rest => removeRanges (removeRange l r) rest

/-- Modelled from the spec: narrow a free list to the addresses inside
`t` (the tenant-allocation sub-range). -/
def narrowTo (l : List IPRange) (t : IPRange) : List IPRange :=
  (l.map fun s => (⟨max s.lo t.lo, min s.hi t.hi⟩ : IPRange)).filter
    fun q => decide (q.lo ≤ q.hi)

/-- Static configuration of one `NetworkPool` (from `NetworkPoolSpec`):
its CIDR, reserved ranges and optional tenant-allocation sub-range,
already parsed into numeric ranges. -/
structure PoolConfig where
  cidr : IPRange
  reserved : List IPRange
  tenantRange : Option IPRange
deriving DecidableEq, Repr

/-- Modelled from the spec: the §4.3 edge-case policy — pool
configuration is validated before
any allocation: CIDR and reserved ranges well formed, reserved ranges
inside the CIDR and mutually non-overlapping. -/
def ValidConfig (c : PoolConfig) : Prop :=
  c.cidr.WF ∧ (∀ r ∈ c.reserved, r.WF ∧ c.cidr.lo ≤ r.lo ∧ r.hi ≤ c.cidr.hi) ∧
    c.reserved.Pairwise IPRange.Disj

instance (c : PoolConfig) : Decidable (ValidConfig c) := by
  unfold ValidConfig
  infer_instance

/-- Modelled from the spec: the free list seeded at pool creation time:
the full CIDR, minus every reserved range, narrowed to the
tenant-allocation range when present. -/
def seedFree (c : PoolConfig) : List IPRange :=
  let base := removeRanges [c.cidr] c.reserved
  match c.tenantRange with
  | none => base
  | some t => narrowTo base t

/-- Modelled from the spec: the initial bookkeeping state of a pool —
everything allocatable is free, no allocations recorded. -/
def PoolState.init (c : PoolConfig) : PoolState :=
  { allocatable := seedFree c, free := seedFree c, allocs := [] }

/-! ## Pool status (NetworkPoolStatus) -/
/-- The observed status fields of a `NetworkPool`
(`NetworkPoolStatus` in the source schema). -/
structure PoolStatus where
  totalIPs : Nat
  allocatedIPs : Nat
  availableIPs : Nat
  allocationCount : Nat
  fragmentationPercent : Nat
  largestFreeBlock : Nat
deriving DecidableEq, Repr

/-- Modelled from the spec: `recomputeStatus()` derives the
`NetworkPool` status fields from the pool's bookkeeping state. -/
def recomputeStatus (st : PoolState) : PoolStatus :=
  { totalIPs := totalSize st.allocatable
    allocatedIPs := totalSize (activeRanges st)
    availableIPs := totalSize st.free
    allocationCount := st.allocs.length
    fragmentationPercent := fragmentationPercent st.free
    largestFreeBlock := largestFree st.free }

/-! ## Reachable pool states

The operations the spec allows on a live pool: `allocate` (with a
validated count), `allocatePinned`, and `release` of one of the pool's
recorded active allocations. -/
/-- Modelled from the spec: one reconciliation-driven mutation of a
pool — a successful `allocate`, a successful `allocatePinned`, or a
`release` of a recorded, not-yet-released allocation's range. -/
inductive Step : PoolState → PoolState → Prop where
  | allocate (st : PoolState) (count : Nat) (r : IPRange) (st' : PoolState)
      (hcount : 1 ≤ count)
      (hok : PoolAllocator.allocate st count = .ok (r, st')) :
      Step st st'
  | allocatePinned (st : PoolState) (a b : Nat) (r : IPRange) (st' : PoolState)
      (hok : PoolAllocator.allocatePinned st a b = .ok (r, st')) :
      Step st st'
  | release (st : PoolState) (r : IPRange)
      (hr : r ∈ activeRanges st) :
      Step st (PoolAllocator.release st r)

/-- Modelled from the spec: a pool state reachable from the seeded
initial state by any sequence of allocate / allocatePinned / release
operations. -/
def Reachable (c : PoolConfig) (st : PoolState) : Prop :=
  Relation.ReflTransGen Step (PoolState.init c) st

/-! ## The pool invariant -/
/-- The bookkeeping invariant of a pool: free list and allocatable
space canonical, active allocations well formed, pairwise disjoint,
inside the allocatable space, disjoint from the free list, and together
with the free list exactly covering the allocatable space. -/
structure Inv (st : PoolState) : Prop where
  canAllocatable : Canonical st.allocatable
  canFree : Canonical st.free
  activeWF : ∀ r ∈ activeRanges st, r.WF
  activeDisj : (activeRanges st).Pairwise IPRange.Disj
  freeSub : ∀ x, Covers st.free x → Covers st.allocatable x
  activeSub : ∀ x, Covers (activeRanges st) x → Covers st.allocatable x
  partition : ∀ x, Covers st.allocatable x →
    Covers st.free x ∨ Covers (activeRanges st) x
  freeActiveDisj : ∀ x, Covers st.free x → ¬ Covers (activeRanges st) x

/-- A small concrete pool configuration: CIDR `[0, 15]` with reserved
range `[0, 3]`. -/
def witnessConfig : PoolConfig := ⟨⟨0, 15⟩, [⟨0, 3⟩], none⟩

/-- The state of `witnessConfig`'s pool after allocating 4 addresses. -/
def witnessState : PoolState :=
  ⟨[⟨4, 15⟩], [⟨8, 15⟩], [⟨⟨4, 7⟩, false⟩]⟩

instance (l : List IPRange) : Decidable (Canonical l) := by
  unfold Canonical
  infer_instance

/-! ## Concrete fragmentation scenarios (spec §8) -/
/-- Dotted-quad IPv4 address as a 32-bit number. -/
def ipv4 (a b c d : Nat) : Nat := ((a * 256 + b) * 256 + c) * 256 + d

/-- Pool `10.0.0.0/24`, no reserved ranges. -/
def fragPool : PoolConfig :=
  ⟨⟨ipv4 10 0 0 0, ipv4 10 0 0 255⟩, [], none⟩

/-- `fragPool` after pinning `10.0.0.10 – 10.0.0.20`. -/
def fragSt1 : PoolState :=
  ⟨[⟨ipv4 10 0 0 0, ipv4 10 0 0 255⟩],
   [⟨ipv4 10 0 0 0, ipv4 10 0 0 9⟩, ⟨ipv4 10 0 0 21, ipv4 10 0 0 255⟩],
   [⟨⟨ipv4 10 0 0 10, ipv4 10 0 0 20⟩, false⟩]⟩

/-- `fragSt1` after releasing `10.0.0.10 – 10.0.0.20` (the whole /24
coalesces back into one free block). -/
def fragSt2 : PoolState :=
  ⟨[⟨ipv4 10 0 0 0, ipv4 10 0 0 255⟩],
   [⟨ipv4 10 0 0 0, ipv4 10 0 0 255⟩],
   [⟨⟨ipv4 10 0 0 10, ipv4 10 0 0 20⟩, true⟩]⟩

/-- `fragSt2` after a fresh request for 5 addresses. -/
def fragSt3 : PoolState :=
  ⟨[⟨ipv4 10 0 0 0, ipv4 10 0 0 255⟩],
   [⟨ipv4 10 0 0 5, ipv4 10 0 0 255⟩],
   [⟨⟨ipv4 10 0 0 10, ipv4 10 0 0 20⟩, true⟩,
    ⟨⟨ipv4 10 0 0 0, ipv4 10 0 0 4⟩, false⟩]⟩

/-- `fragPool` after pinning `10.0.0.0 – 10.0.0.9`. -/
def fragStA : PoolState :=
  ⟨[⟨ipv4 10 0 0 0, ipv4 10 0 0 255⟩],
   [⟨ipv4 10 0 0 10, ipv4 10 0 0 255⟩],
   [⟨⟨ipv4 10 0 0 0, ipv4 10 0 0 9⟩, false⟩]⟩

/-- `fragStA` after additionally pinning `10.0.0.10 – 10.0.0.20`. -/
def fragStB : PoolState :=
  ⟨[⟨ipv4 10 0 0 0, ipv4 10 0 0 255⟩],
   [⟨ipv4 10 0 0 21, ipv4 10 0 0 255⟩],
   [⟨⟨ipv4 10 0 0 0, ipv4 10 0 0 9⟩, false⟩,
    ⟨⟨ipv4 10 0 0 10, ipv4 10 0 0 20⟩, false⟩]⟩

/-- `fragStB` after releasing `10.0.0.10 – 10.0.0.20`: the reclaimed
range merges only with the free space above it because
`10.0.0.0 – 10.0.0.9` is still allocated. -/
def reuseSt : PoolState :=
  ⟨[⟨ipv4 10 0 0 0, ipv4 10 0 0 255⟩],
   [⟨ipv4 10 0 0 10, ipv4 10 0 0 255⟩],
   [⟨⟨ipv4 10 0 0 0, ipv4 10 0 0 9⟩, false⟩,
    ⟨⟨ipv4 10 0 0 10, ipv4 10 0 0 20⟩, true⟩]⟩

/-- `reuseSt` after a fresh request for 5 addresses: the chosen range
`10.0.0.10 – 10.0.0.14` lies inside the reclaimed range. -/
def reuseStAfter : PoolState :=
  ⟨[⟨ipv4 10 0 0 0, ipv4 10 0 0 255⟩],
   [⟨ipv4 10 0 0 15, ipv4 10 0 0 255⟩],
   [⟨⟨ipv4 10 0 0 0, ipv4 10 0 0 9⟩, false⟩,
    ⟨⟨ipv4 10 0 0 10, ipv4 10 0 0 20⟩, true⟩,
    ⟨⟨ipv4 10 0 0 10, ipv4 10 0 0 14⟩, false⟩]⟩

/-! ## PriorityPoolSelector

Modelled from the spec §4.4: an ordered list of `(pool, priority)`
pairs (from `PoolReference`: lower priority value tried first, equal
priorities in list order), iterated for `count` requests by calling
`PoolAllocator.allocate`, stopping at the first success, aggregating
total failure into a `PoolExhaustedError` naming every attempted
pool. -/
/-- Modelled from the spec: one candidate pool for the selector (from
`PoolReference` in `ButlerConfig`) — name, priority (lower = tried
first) and pool state. -/
structure PoolEntry where
  name : String
  priority : Int
  state : PoolState
deriving DecidableEq, Repr

/-- Modelled from the spec: stable insertion — the new entry goes
after every already-placed entry whose priority is less than or equal
to its own. -/
def insertByPrio (e : PoolEntry) : List PoolEntry → List PoolEntry
  | [] => [e]
  | x :: xs =>
    if x.priority ≤ e.priority then x :: insertByPrio e xs
    else e :: x :: xs

/-- Modelled from the spec: the order in which the selector tries
pools — ascending priority value, pools of equal priority in list
order (a stable sort by priority). -/
def ordered (l : List PoolEntry) : List PoolEntry :=
  l.foldl (fun acc e => insertByPrio e acc) []

/-- Modelled from the spec: try each pool in order with `allocate`,
stopping at the first success; on total failure return the names of
every attempted pool. -/
def tryPoolsCount : List PoolEntry → Nat →
    Except (List String) (String × IPRange × PoolState)
  | [], _ => .error []
  | e :: rest, count =>
    match PoolAllocator.allocate e.state count with
    | .ok (r, st') => .ok (e.name, r, st')
    | .error _ =>
      match tryPoolsCount rest count with
      | .ok res => .ok res
      | .error names => .error (e.name :: names)

/-- Modelled from the spec: §4.4 — for `count` requests the selector
iterates pools in priority order (stable within equal priorities),
calling `PoolAllocator.allocate`, stopping at the first success; if
every pool is exhausted it fails with `PoolExhaustedError` naming all
attempted pools. -/
def selectAllocate (pools : List PoolEntry) (count : Nat) :
    Except AllocError (String × IPRange × PoolState) :=
  match tryPoolsCount (ordered pools) count with
  | .ok res => .ok res
  | .error names => .error (.poolExhausted names)

/-! ## AllocationLifecycleController

Modelled from the spec §4.6: the reconciliation-driven state machine
`Pending → Allocated | Failed`, `Allocated → Released`, with idempotent
retries and the retry-vs-terminal error policy of §7. -/
/-- `IPAllocationPhase` from the source schema
(`Pending`, `Allocated`, `Released`, `Failed`). -/
inductive IPAllocationPhase where
  | pending
  | allocated
  | released
  | failed
deriving DecidableEq, Repr

/-- The JSON string value of each phase, from the source constants
`IPAllocationPhasePending` … `IPAllocationPhaseFailed`. -/
def IPAllocationPhase.jsonValue : IPAllocationPhase → String
  | .pending => "Pending"
  | .allocated => "Allocated"
  | .released => "Released"
  | .failed => "Failed"

/-- `IPAllocationType` from the source schema (`nodes`,
`loadbalancer`). -/
inductive IPAllocationType where
  | nodes
  | loadbalancer
deriving DecidableEq, Repr

/-- The JSON string value of each allocation type, from the source
constants `IPAllocationTypeNodes` / `IPAllocationTypeLoadBalancer`. -/
def IPAllocationType.jsonValue : IPAllocationType → String
  | .nodes => "nodes"
  | .loadbalancer => "loadbalancer"

/-- Modelled from the spec: the observed status of one `IPAllocation`
as far as the lifecycle controller drives it — phase, recorded range,
condition reason and the pool that fulfilled it (`AllocatedBy`). -/
structure AllocStatus where
  phase : IPAllocationPhase
  range : Option IPRange
  conditionReason : Option String
  allocatedBy : Option String
deriving DecidableEq, Repr

/-- Modelled from the spec: the state the controller reconciles — the
candidate pools and the allocation's status. -/
structure ReconcileState where
  pools : List PoolEntry
  status : AllocStatus
deriving DecidableEq, Repr

/-- Modelled from the spec: the request shape — an automatic `count`
or an exact pinned range. -/
inductive Request where
  | count (n : Nat)
  | pinned (a b : Nat)
deriving DecidableEq, Repr

/-- Modelled from the spec: replace the state of the named pool after
an allocation. -/
def updatePool (pools : List PoolEntry) (nm : String) (st' : PoolState) :
    List PoolEntry :=
  pools.map fun e => if e.name = nm then ⟨e.name, e.priority, st'⟩ else e

/-- Modelled from the spec: §4.4 — a pinned request consults only the
single pool whose allocatable space contains the range (no fan-out);
`OutOfRangeError` when no listed pool contains it. -/
def poolContaining (pools : List PoolEntry) (a b : Nat) : Option PoolEntry :=
  pools.find? fun e => rangeSub a b e.state.allocatable

/-- Modelled from the spec: run one allocation request against the
pools — `count` requests go through the priority selector, pinned
requests to the single containing pool. -/
def runRequest (pools : List PoolEntry) : Request →
    Except AllocError (String × IPRange × List PoolEntry)
  | .count n =>
    match selectAllocate pools n with
    | .ok (nm, r, st') => .ok (nm, r, updatePool pools nm st')
    | .error e => .error e
  | .pinned a b =>
    match poolContaining pools a b with
    | none => .error .outOfRange
    | some e =>
      match PoolAllocator.allocatePinned e.state a b with
      | .ok (r, st') => .ok (e.name, r, updatePool pools e.name st')
      | .error err => .error err

/-- Modelled from the spec: §7 — `InsufficientSpaceError` and
`PoolExhaustedError` are transient (retried, allocation stays
`Pending`); every other allocation error is terminal (`Failed`). -/
def transientError : AllocError → Bool
  | .insufficientSpace => true
  | .poolExhausted _ => true
  | .invalidAddress => false
  | .rangeOrder => false
  | .rangeConflict => false
  | .outOfRange => false

/-- Modelled from the spec: the machine-readable condition reason for
an allocation error (§7: transient failures surface reason
`PoolExhausted`). -/
def reasonOf : AllocError → String
  | .invalidAddress => "AllocationFailed"
  | .rangeOrder => "AllocationFailed"
  | .rangeConflict => "AllocationFailed"
  | .outOfRange => "AllocationFailed"
  | .insufficientSpace => "PoolExhausted"
  | .poolExhausted _ => "PoolExhausted"

/-- Modelled from the spec: §4.6 — one reconciliation of a `Pending`
allocation.  An allocation that already has a recorded range is
detected and re-allocation is skipped (idempotent retry); otherwise the
request is run, a success records the range, phase `Allocated` and
`AllocatedBy`; a transient error leaves the allocation `Pending` with
condition reason `PoolExhausted`; a terminal error moves it to
`Failed`.  Non-`Pending` allocations are left untouched. -/
def reconcile (req : Request) (st : ReconcileState) : ReconcileState :=
  match st.status.phase with
  | .pending =>
    match st.status.range with
    | some _ => { st with status := { st.status with phase := .allocated } }
    | none =>
      match runRequest st.pools req with
      | .ok (nm, r, pools') =>
        { pools := pools'
          status := { phase := .allocated
                      range := some r
                      conditionReason := none
                      allocatedBy := some nm } }
      | .error e =>
        if transientError e then
          { st with status :=
              { st.status with conditionReason := some "PoolExhausted" } }
        else
          { st with status :=
              { st.status with
                phase := .failed
                conditionReason := some (reasonOf e) } }
  | _ => st

/-! ## Concrete selector / controller scenarios -/
/-- Pool `A`: priority 0, fully allocated (0 free addresses). -/
def poolAState : PoolState := ⟨[⟨0, 9⟩], [], [⟨⟨0, 9⟩, false⟩]⟩

/-- Pool `B`: priority 1, 100 free addresses. -/
def poolBState : PoolState := ⟨[⟨100, 199⟩], [⟨100, 199⟩], []⟩

/-- Pool `B` after serving a request for 5 addresses. -/
def poolBAfter : PoolState := ⟨[⟨100, 199⟩], [⟨105, 199⟩], [⟨⟨100, 104⟩, false⟩]⟩

/-- The two candidate pools of the priority-fallback scenario. -/
def abPools : List PoolEntry := [⟨"A", 0, poolAState⟩, ⟨"B", 1, poolBState⟩]

/-- A pending allocation against pools `A` and `B`. -/
def abPending : ReconcileState := ⟨abPools, ⟨.pending, none, none, none⟩⟩

/-- Pool `10.0.0.0/24` with `10.0.0.8` already allocated. -/
def conflictPoolState : PoolState :=
  ⟨[⟨ipv4 10 0 0 0, ipv4 10 0 0 255⟩],
   [⟨ipv4 10 0 0 0, ipv4 10 0 0 7⟩, ⟨ipv4 10 0 0 9, ipv4 10 0 0 255⟩],
   [⟨⟨ipv4 10 0 0 8, ipv4 10 0 0 8⟩, false⟩]⟩

/-- The conflict pool as the only selector candidate. -/
def conflictPools : List PoolEntry := [⟨"P", 0, conflictPoolState⟩]

/-- A pending allocation against the conflict pool. -/
def conflictPending : ReconcileState :=
  ⟨conflictPools, ⟨.pending, none, none, none⟩⟩

/-! ## The persisted JSON contract (ipallocation_types.go) -/
/-- JSON field name of `IPAllocationStatus.Phase`
(struct tag `json:"phase,omitempty"`). -/
def phaseFieldName : String := "phase"

/-- JSON field name of `IPAllocationSpec.Type` (struct tag
`json:"type"`). -/
def typeFieldName : String := "type"

/-! ## The IPAllocation request shape (C8) -/
/-- `LocalObjectReference` from the source schema. -/
structure LocalObjectReference where
  name : String
deriving DecidableEq, Repr

/-- `NamespacedObjectReference` from the source schema (the
`namespace` field is called `nspace` here — `namespace` is a Lean
keyword). -/
structure NamespacedObjectReference where
  name : String
  nspace : String
deriving DecidableEq, Repr

/-- `PinnedIPRange` from the source schema: exact start and end
addresses as dotted-quad strings. -/
structure PinnedIPRange where
  startAddress : String
  endAddress : String
deriving DecidableEq, Repr

/-- `IPAllocationSpec` from the source schema: required pool and
tenant-cluster references and allocation type; optional `Count`
(minimum 1; per the source doc "If not specified, defaults from the
NetworkPool are used.  Ignored when PinnedRange is set.") and optional
`PinnedRange`. -/
structure IPAllocationSpec where
  poolRef : LocalObjectReference
  tenantClusterRef : NamespacedObjectReference
  type : IPAllocationType
  count : Option Int
  pinnedRange : Option PinnedIPRange
deriving DecidableEq, Repr

/-- Split a character list at every dot. -/
def splitDots : List Char → List (List Char)
  | [] => [[]]
  | c :: rest =>
    if c = '.' then [] :: splitDots rest
    else
      match splitDots rest with
      | [] => [[c]]
      | p :: ps => (c :: p) :: ps

/-- The dotted-quad pattern of the source schema
(`(\d{1,3}\.){3}\d{1,3}`): four dot-separated groups of one to three
digits. -/
def isDottedQuad (s : String) : Bool :=
  let parts := splitDots s.data
  parts.length == 4 && parts.all fun p =>
    decide (1 ≤ p.length) && decide (p.length ≤ 3) &&
      p.all Char.isDigit

/-- The declarative (kubebuilder) validation of `IPAllocationSpec` in
the source schema: references non-empty, `Count ≥ 1` when present,
pinned addresses matching the dotted-quad pattern.  The source declares
no rule making `Count` and `PinnedRange` mutually exclusive. -/
def validIPAllocationSpec (s : IPAllocationSpec) : Bool :=
  decide (1 ≤ s.poolRef.name.length) &&
  decide (1 ≤ s.tenantClusterRef.name.length) &&
  decide (1 ≤ s.tenantClusterRef.nspace.length) &&
  (match s.count with
   | some c => decide (1 ≤ c)
   | none => true) &&
  (match s.pinnedRange with
   | some p => isDottedQuad p.startAddress && isDottedQuad p.endAddress
   | none => true)

/-- The request shape an `IPAllocationSpec` resolves to. -/
inductive RequestShape where
  | countShape (n : Int)
  | pinnedShape (p : PinnedIPRange)
deriving DecidableEq, Repr

/-- Modelled from the source field documentation: `Count` is "Ignored
when PinnedRange is set"; when `Count` is not specified, "defaults from
the NetworkPool are used". -/
def resolveShape (defaultCount : Int) (s : IPAllocationSpec) : RequestShape :=
  match s.pinnedRange with
  | some p => .pinnedShape p
  | none => .countShape (s.count.getD defaultCount)

/-- A request that specifies both a `Count` and a `PinnedRange`. -/
def bothSpec : IPAllocationSpec :=
  ⟨⟨"pool-a"⟩, ⟨"cluster-a", "tenants"⟩, .nodes, some 5,
   some ⟨"10.0.0.5", "10.0.0.10"⟩⟩

/-! ## The `contains` helper (identityprovider types file)

Go strings are modelled as lists of characters; `s[i:i+len(substr)] ==
substr` is the length-`substr` slice at `i`.  The loop bound
`i <= len(s)-len(substr)` is Go `int` arithmetic, so it is an integer
comparison here. -/
/-- `containsAt` from the source: scan positions `start ≤ i ≤
len(s) - len(substr)`, returning true as soon as the slice at `i`
equals `substr`. -/
def containsAt (s substr : List Char) (start : Nat) : Bool :=
  if (start : Int) ≤ (s.length : Int) - (substr.length : Int) then
    if (s.drop start).take substr.length = substr then true
    else containsAt s substr (start + 1)
  else false
termination_by s.length + 1 - start
decreasing_by omega

/-- `contains` from the source:
`len(s) >= len(substr) && (s == substr || len(s) > 0 &&
containsAt(s, substr, 0))`. -/
def containsGo (s substr : List Char) : Bool :=
  decide (substr.length ≤ s.length) &&
    (decide (s = substr) ||
      (decide (0 < s.length) && containsAt s substr 0))

theorem covers_nil (x : Nat) : ¬ Covers [] x := by
  rintro ⟨r, hr, -⟩; exact absurd hr (List.not_mem_nil r)

theorem covers_cons {r : IPRange} {l : List IPRange} {x : Nat} :
    Covers (r :: l) x ↔ (r.lo ≤ x ∧ x ≤ r.hi) ∨ Covers l x := by
  constructor
  · rintro ⟨s, hs, h1, h2⟩
    rcases List.mem_cons.mp hs with h | h
    · exact Or.inl (h ▸ ⟨h1, h2⟩)
    · exact Or.inr ⟨s, h, h1, h2⟩
  · rintro (⟨h1, h2⟩ | ⟨s, hs, h1, h2⟩)
    · exact ⟨r, List.mem_cons_self r l, h1, h2⟩
    · exact ⟨s, List.mem_cons_of_mem r hs, h1, h2⟩

theorem covers_append {l₁ l₂ : List IPRange} {x : Nat} :
    Covers (l₁ ++ l₂) x ↔ Covers l₁ x ∨ Covers l₂ x := by
  constructor
  · rintro ⟨r, hr, h⟩
    rcases List.mem_append.mp hr with h' | h'
    · exact Or.inl ⟨r, h', h⟩
    · exact Or.inr ⟨r, h', h⟩
  · rintro (⟨r, hr, h⟩ | ⟨r, hr, h⟩)
    · exact ⟨r, List.mem_append.mpr (Or.inl hr), h⟩
    · exact ⟨r, List.mem_append.mpr (Or.inr hr), h⟩

/-- Helper for `List.Pairwise`: any two members of a pairwise-related
list are equal or related one way or the other. -/
theorem pairwise_two_of_mem {R : IPRange → IPRange → Prop} :
    ∀ {l : List IPRange}, l.Pairwise R → ∀ {a b : IPRange},
      a ∈ l → b ∈ l → a = b ∨ R a b ∨ R b a := by
  intro l hl
  induction hl with
  | nil => intro a b ha _; exact absurd ha (List.not_mem_nil a)
  | cons hrel _ ih =>
    intro a b ha hb
    rcases List.mem_cons.mp ha with rfl | ha' <;>
      rcases List.mem_cons.mp hb with h | hb'
    · exact Or.inl h.symm
    · exact Or.inr (Or.inl (hrel b hb'))
    · exact Or.inr (Or.inr (h ▸ hrel a ha'))
    · exact ih ha' hb'

theorem cutRange_covers (s r : IPRange) (x : Nat) :
    Covers (cutRange s r) x ↔
      (s.lo ≤ x ∧ x ≤ s.hi) ∧ ¬ (r.lo ≤ x ∧ x ≤ r.hi) := by
  unfold cutRange
  split_ifs with h1 h2 h2 <;>
    simp [covers_cons, covers_nil] <;> omega

theorem removeRange_covers (l : List IPRange) (r : IPRange) (x : Nat) :
    Covers (removeRange l r) x ↔
      Covers l x ∧ ¬ (r.lo ≤ x ∧ x ≤ r.hi) := by
  induction l with
  | nil => simp [removeRange, covers_nil]
  | cons s rest ih =>
    simp only [removeRange, covers_append, covers_cons, ih, cutRange_covers]
    tauto

theorem addRange_covers (l : List IPRange) (r : IPRange)
    (hl : ∀ s ∈ l, s.WF) (hr : r.WF) (x : Nat) :
    Covers (addRange l r) x ↔
      Covers l x ∨ (r.lo ≤ x ∧ x ≤ r.hi) := by
  induction l generalizing r with
  | nil => simp [addRange, covers_cons, covers_nil]
  | cons s rest ih =>
    have hs : s.WF := hl s (List.mem_cons_self s rest)
    have hrest : ∀ t ∈ rest, t.WF := fun t ht => hl t (List.mem_cons_of_mem s ht)
    have hwfr : r.WF := hr
    simp only [IPRange.WF] at hs hr
    unfold addRange
    split_ifs with h1 h2
    · simp only [covers_cons]
      tauto
    · simp only [covers_cons, ih r hrest hwfr]
      tauto
    · have hm : (⟨min s.lo r.lo, max s.hi r.hi⟩ : IPRange).WF := by
        simp only [IPRange.WF]; omega
      rw [ih _ hrest hm]
      simp only [covers_cons]
      by_cases hP : Covers rest x
      · simp [hP]
      · simp only [hP, false_or, or_false]
        omega

theorem cutRange_mem_sub {s r p : IPRange} (hs : s.WF) (hp : p ∈ cutRange s r) :
    s.lo ≤ p.lo ∧ p.hi ≤ s.hi ∧ p.WF := by
  simp only [IPRange.WF] at hs ⊢
  unfold cutRange at hp
  split_ifs at hp with h1 h2 h2 <;>
    simp only [List.cons_append, List.singleton_append, List.nil_append,
      List.append_nil, List.mem_cons, List.mem_singleton,
      List.not_mem_nil, or_false] at hp <;>
    first
      | (rcases hp with rfl | rfl <;> constructor <;> simp <;> omega)
      | (subst hp; constructor <;> simp <;> omega)
      | exact absurd hp (List.not_mem_nil p)

theorem cutRange_pairwise (s r : IPRange) (hs : s.WF) (hr : r.WF) :
    (cutRange s r).Pairwise Sep := by
  simp only [IPRange.WF] at hs hr
  unfold cutRange
  split_ifs with h1 h2 h2 <;>
    simp [List.pairwise_cons, Sep] <;> omega

theorem removeRange_mem_sub {l : List IPRange} {r q : IPRange}
    (hl : ∀ s ∈ l, s.WF) (hq : q ∈ removeRange l r) :
    ∃ t ∈ l, t.lo ≤ q.lo ∧ q.hi ≤ t.hi ∧ q.WF := by
  induction l with
  | nil => exact absurd hq (List.not_mem_nil q)
  | cons s rest ih =>
    rcases List.mem_append.mp hq with h | h
    · obtain ⟨h1, h2, h3⟩ := cutRange_mem_sub (hl s (List.mem_cons_self s rest)) h
      exact ⟨s, List.mem_cons_self s rest, h1, h2, h3⟩
    · obtain ⟨t, ht, h⟩ := ih (fun t ht => hl t (List.mem_cons_of_mem s ht)) h
      exact ⟨t, List.mem_cons_of_mem s ht, h⟩

theorem removeRange_canonical {l : List IPRange} {r : IPRange}
    (hl : Canonical l) (hr : r.WF) : Canonical (removeRange l r) := by
  obtain ⟨hwf, hpw⟩ := hl
  induction l with
  | nil => exact ⟨fun s hs => absurd hs (List.not_mem_nil s), List.Pairwise.nil⟩
  | cons s rest ih =>
    have hs : s.WF := hwf s (List.mem_cons_self s rest)
    have hrest : ∀ t ∈ rest, t.WF := fun t ht => hwf t (List.mem_cons_of_mem s ht)
    rw [List.pairwise_cons] at hpw
    obtain ⟨hsep, hpw'⟩ := hpw
    obtain ⟨ihwf, ihpw⟩ := ih hrest hpw'
    refine ⟨?_, ?_⟩
    · intro p hp
      rw [removeRange] at hp
      rcases List.mem_append.mp hp with h | h
      · exact (cutRange_mem_sub hs h).2.2
      · exact ihwf p h
    · rw [removeRange, List.pairwise_append]
      refine ⟨cutRange_pairwise s r hs hr, ihpw, ?_⟩
      intro p hp q hq
      obtain ⟨-, hp2, -⟩ := cutRange_mem_sub hs hp
      obtain ⟨t, ht, hq1, -, -⟩ := removeRange_mem_sub hrest hq
      have := hsep t ht
      unfold Sep at this ⊢
      omega

theorem addRange_mem_lo {l : List IPRange} {r : IPRange} {c : Nat}
    (hc : c < r.lo) (hl : ∀ s ∈ l, c < s.lo) :
    ∀ t ∈ addRange l r, c < t.lo := by
  induction l generalizing r with
  | nil =>
    intro t ht
    rw [addRange, List.mem_singleton] at ht
    exact ht ▸ hc
  | cons s rest ih =>
    intro t ht
    have hslo : c < s.lo := hl s (List.mem_cons_self s rest)
    have hrest : ∀ u ∈ rest, c < u.lo := fun u hu => hl u (List.mem_cons_of_mem s hu)
    unfold addRange at ht
    split_ifs at ht with h1 h2
    · rcases List.mem_cons.mp ht with rfl | ht'
      · exact hc
      · rcases List.mem_cons.mp ht' with rfl | ht''
        · exact hslo
        · exact hrest t ht''
    · rcases List.mem_cons.mp ht with rfl | ht'
      · exact hslo
      · exact ih hc hrest t ht'
    · refine ih ?_ hrest t ht
      simp only []
      omega

theorem addRange_canonical {l : List IPRange} {r : IPRange}
    (hl : Canonical l) (hr : r.WF) : Canonical (addRange l r) := by
  obtain ⟨hwf, hpw⟩ := hl
  induction l generalizing r with
  | nil =>
    refine ⟨?_, List.pairwise_singleton Sep r⟩
    intro s hs
    rw [addRange, List.mem_singleton] at hs
    exact hs ▸ hr
  | cons s rest ih =>
    have hs : s.WF := hwf s (List.mem_cons_self s rest)
    have hrest : ∀ t ∈ rest, t.WF := fun t ht => hwf t (List.mem_cons_of_mem s ht)
    rw [List.pairwise_cons] at hpw
    obtain ⟨hsep, hpw'⟩ := hpw
    have hs' : s.lo ≤ s.hi := hs
    have hr' : r.lo ≤ r.hi := hr
    unfold addRange
    split_ifs with h1 h2
    · refine ⟨?_, ?_⟩
      · intro t ht
        rcases List.mem_cons.mp ht with rfl | ht'
        · exact hr
        · exact hwf t ht'
      · rw [List.pairwise_cons]
        refine ⟨?_, List.pairwise_cons.mpr ⟨hsep, hpw'⟩⟩
        intro t ht
        rcases List.mem_cons.mp ht with rfl | ht'
        · exact h1
        · have := hsep t ht'
          unfold Sep at this ⊢
          omega
    · obtain ⟨ih1, ih2⟩ := ih hr hrest hpw'
      refine ⟨?_, ?_⟩
      · intro t ht
        rcases List.mem_cons.mp ht with rfl | ht'
        · exact hs
        · exact ih1 t ht'
      · rw [List.pairwise_cons]
        refine ⟨?_, ih2⟩
        intro t ht
        exact addRange_mem_lo h2 (fun u hu => hsep u hu) t ht
    · have hm : (⟨min s.lo r.lo, max s.hi r.hi⟩ : IPRange).WF := by
        simp only [IPRange.WF]
        omega
      exact ih hm hrest hpw'

theorem covers_tail_gt {a : IPRange} {t : List IPRange} {x : Nat}
    (hpw : (a :: t).Pairwise Sep) (h : Covers t x) : a.hi + 1 < x := by
  obtain ⟨r, hr, h1, h2⟩ := h
  have := (List.pairwise_cons.mp hpw).1 r hr
  unfold Sep at this
  omega

/-- Canonical free lists are extensional: equal coverage means equal lists. -/
theorem canonical_ext : ∀ {l l' : List IPRange}, Canonical l → Canonical l' →
    (∀ x, Covers l x ↔ Covers l' x) → l = l' := by
  intro l
  induction l with
  | nil =>
    intro l' _ hc' hcov
    cases l' with
    | nil => rfl
    | cons b t' =>
      have hb : Covers (b :: t') b.lo :=
        ⟨b, List.mem_cons_self b t', Nat.le_refl _, hc'.1 b (List.mem_cons_self b t')⟩
      exact absurd ((hcov b.lo).mpr hb) (covers_nil b.lo)
  | cons a t ih =>
    intro l' hc hc' hcov
    cases l' with
    | nil =>
      have ha : Covers (a :: t) a.lo :=
        ⟨a, List.mem_cons_self a t, Nat.le_refl _, hc.1 a (List.mem_cons_self a t)⟩
      exact absurd ((hcov a.lo).mp ha) (covers_nil a.lo)
    | cons b t' =>
      have hwa : a.WF := hc.1 a (List.mem_cons_self a t)
      have hwb : b.WF := hc'.1 b (List.mem_cons_self b t')
      simp only [IPRange.WF] at hwa hwb
      -- the two heads start at the same address
      have hlo : a.lo = b.lo := by
        have h1 : Covers (b :: t') a.lo :=
          (hcov a.lo).mp ⟨a, List.mem_cons_self a t, Nat.le_refl _, hwa⟩
        have h2 : Covers (a :: t) b.lo :=
          (hcov b.lo).mpr ⟨b, List.mem_cons_self b t', Nat.le_refl _, hwb⟩
        rcases covers_cons.mp h1 with ⟨hb1, -⟩ | hcv
        · rcases covers_cons.mp h2 with ⟨ha1, -⟩ | hcv'
          · omega
          · have := covers_tail_gt hc.2 hcv'
            omega
        · have := covers_tail_gt hc'.2 hcv
          rcases covers_cons.mp h2 with ⟨ha1, -⟩ | hcv'
          · omega
          · have := covers_tail_gt hc.2 hcv'
            omega
      -- and they end at the same address
      have hhi : a.hi = b.hi := by
        rcases Nat.lt_trichotomy a.hi b.hi with hlt | heq | hgt
        · exfalso
          have hx : Covers (b :: t') (a.hi + 1) :=
            ⟨b, List.mem_cons_self b t', by omega, by omega⟩
          rcases covers_cons.mp ((hcov (a.hi + 1)).mpr hx) with ⟨-, h2⟩ | hcv
          · omega
          · have := covers_tail_gt hc.2 hcv
            omega
        · exact heq
        · exfalso
          have hx : Covers (a :: t) (b.hi + 1) :=
            ⟨a, List.mem_cons_self a t, by omega, by omega⟩
          rcases covers_cons.mp ((hcov (b.hi + 1)).mp hx) with ⟨-, h2⟩ | hcv
          · omega
          · have := covers_tail_gt hc'.2 hcv
            omega
      have hab : a = b := by
        cases a; cases b
        simp only at hlo hhi
        simp [hlo, hhi]
      -- the tails cover the same addresses
      have htails : ∀ x, Covers t x ↔ Covers t' x := by
        intro x
        constructor
        · intro hx
          have hgt := covers_tail_gt hc.2 hx
          rcases covers_cons.mp ((hcov x).mp (covers_cons.mpr (Or.inr hx))) with ⟨-, h2⟩ | h
          · omega
          · exact h
        · intro hx
          have hgt := covers_tail_gt hc'.2 hx
          rcases covers_cons.mp ((hcov x).mpr (covers_cons.mpr (Or.inr hx))) with ⟨-, h2⟩ | h
          · omega
          · exact h
      have hct : Canonical t :=
        ⟨fun s hs => hc.1 s (List.mem_cons_of_mem a hs), (List.pairwise_cons.mp hc.2).2⟩
      have hct' : Canonical t' :=
        ⟨fun s hs => hc'.1 s (List.mem_cons_of_mem b hs), (List.pairwise_cons.mp hc'.2).2⟩
      rw [hab, ih hct hct' htails]

theorem canonical_wf {l : List IPRange} (h : Canonical l) : ∀ s ∈ l, s.WF := h.1

/-- Releasing a range twice is the same as releasing it once. -/
theorem addRange_idem {l : List IPRange} {r : IPRange}
    (hl : Canonical l) (hr : r.WF) :
    addRange (addRange l r) r = addRange l r := by
  have h1 : Canonical (addRange l r) := addRange_canonical hl hr
  refine canonical_ext (addRange_canonical h1 hr) h1 ?_
  intro x
  rw [addRange_covers _ _ (canonical_wf h1) hr, addRange_covers _ _ (canonical_wf hl) hr]
  tauto

/-- Releasing an already-free range leaves the free list unchanged. -/
theorem addRange_covered_eq {l : List IPRange} {r : IPRange}
    (hl : Canonical l) (hr : r.WF)
    (hcov : ∀ x, r.lo ≤ x → x ≤ r.hi → Covers l x) :
    addRange l r = l := by
  refine canonical_ext (addRange_canonical hl hr) hl ?_
  intro x
  rw [addRange_covers _ _ (canonical_wf hl) hr]
  constructor
  · rintro (h | ⟨h1, h2⟩)
    · exact h
    · exact hcov x h1 h2
  · exact Or.inl

theorem mem_toFinset (l : List IPRange) (x : Nat) :
    x ∈ toFinset l ↔ Covers l x := by
  induction l with
  | nil => simp [toFinset, covers_nil]
  | cons r rest ih =>
    simp only [toFinset, List.foldr_cons, Finset.mem_union, Finset.mem_Icc,
      covers_cons]
    rw [← ih]
    rfl

theorem sep_imp_disj {r s : IPRange} (h : Sep r s) : r.Disj s := by
  unfold Sep at h
  unfold IPRange.Disj
  omega

theorem card_toFinset (l : List IPRange) (hwf : ∀ r ∈ l, r.WF)
    (hd : l.Pairwise IPRange.Disj) : (toFinset l).card = totalSize l := by
  induction l with
  | nil => simp [toFinset, totalSize]
  | cons r rest ih =>
    rw [List.pairwise_cons] at hd
    have hdisj : Disjoint (Finset.Icc r.lo r.hi) (toFinset rest) := by
      rw [Finset.disjoint_left]
      intro x hx hx'
      rw [Finset.mem_Icc] at hx
      obtain ⟨s, hs, hxs⟩ := (mem_toFinset rest x).mp hx'
      have := hd.1 s hs
      unfold IPRange.Disj at this
      omega
    have : toFinset (r :: rest) = Finset.Icc r.lo r.hi ∪ toFinset rest := rfl
    rw [this, Finset.card_union_of_disjoint hdisj, Nat.card_Icc,
      ih (fun s hs => hwf s (List.mem_cons_of_mem r hs)) hd.2]
    have hr : r.WF := hwf r (List.mem_cons_self r rest)
    simp only [totalSize, List.map_cons, List.sum_cons, IPRange.size]
    try omega

theorem foldr_max_le_sum : ∀ xs : List Nat, xs.foldr max 0 ≤ xs.sum := by
  intro xs
  induction xs with
  | nil => simp
  | cons x rest ih =>
    simp only [List.foldr_cons, List.sum_cons]
    omega

/-- The largest contiguous free block is never larger than the total
free space. -/
theorem largestFree_le_totalSize (l : List IPRange) :
    largestFree l ≤ totalSize l :=
  foldr_max_le_sum (l.map IPRange.size)

theorem findFit_some_mem {l : List IPRange} {count : Nat} :
    ∀ {r : IPRange}, findFit l count = some r → r ∈ l ∧ count ≤ r.size := by
  induction l with
  | nil => intro r h; simp [findFit] at h
  | cons a rest ih =>
    intro r h
    rw [findFit] at h
    split_ifs at h with h1
    · cases hf : findFit rest count with
      | none =>
        rw [hf] at h
        simp only [Option.some.injEq] at h
        subst h
        exact ⟨List.mem_cons_self a rest, h1⟩
      | some b =>
        rw [hf] at h
        simp only at h
        split_ifs at h with h2 <;> simp only [Option.some.injEq] at h <;> subst h
        · obtain ⟨hm, hc⟩ := ih hf
          exact ⟨List.mem_cons_of_mem a hm, hc⟩
        · exact ⟨List.mem_cons_self a rest, h1⟩
    · obtain ⟨hm, hc⟩ := ih h
      exact ⟨List.mem_cons_of_mem a hm, hc⟩

theorem findFit_none_aux {l : List IPRange} {count : Nat}
    (h : findFit l count = none) : ∀ f ∈ l, f.size < count := by
  induction l with
  | nil => intro f hf; exact absurd hf (List.not_mem_nil f)
  | cons a rest ih =>
    intro f hf
    rw [findFit] at h
    split_ifs at h with h1
    · cases hrest : findFit rest count with
      | none => rw [hrest] at h; simp at h
      | some b => rw [hrest] at h; simp only at h; split_ifs at h <;> simp at h
    · rcases List.mem_cons.mp hf with rfl | hf'
      · omega
      · exact ih h f hf'

theorem findFit_some_min {l : List IPRange} {count : Nat} :
    ∀ {r : IPRange}, findFit l count = some r →
      ∀ f ∈ l, count ≤ f.size → r.size ≤ f.size := by
  induction l with
  | nil => intro r h; simp [findFit] at h
  | cons a rest ih =>
    intro r h f hf hcf
    rw [findFit] at h
    split_ifs at h with h1
    · cases hrest : findFit rest count with
      | none =>
        rw [hrest] at h
        simp only [Option.some.injEq] at h
        subst h
        rcases List.mem_cons.mp hf with rfl | hf'
        · exact Nat.le_refl _
        · have := findFit_none_aux hrest f hf'
          omega
      | some b =>
        rw [hrest] at h
        simp only at h
        split_ifs at h with h2 <;> simp only [Option.some.injEq] at h <;> subst h
        · rcases List.mem_cons.mp hf with rfl | hf'
          · omega
          · exact ih hrest f hf' hcf
        · rcases List.mem_cons.mp hf with rfl | hf'
          · exact Nat.le_refl _
          · have := ih hrest f hf' hcf
            omega
    · rcases List.mem_cons.mp hf with rfl | hf'
      · omega
      · exact ih h f hf' hcf

theorem findFit_none_iff {l : List IPRange} {count : Nat} :
    findFit l count = none ↔ ∀ f ∈ l, f.size < count := by
  constructor
  · exact findFit_none_aux
  · intro h
    cases hf : findFit l count with
    | none => rfl
    | some r =>
      obtain ⟨hm, hc⟩ := findFit_some_mem hf
      have := h r hm
      omega

/-- In a sorted free list, the best-fit search breaks size ties in
favour of the lowest start address. -/
theorem findFit_some_lo {l : List IPRange} {count : Nat}
    (hc : Canonical l) :
    ∀ {r : IPRange}, findFit l count = some r →
      ∀ f ∈ l, count ≤ f.size → f.size = r.size → r.lo ≤ f.lo := by
  obtain ⟨hwf, hpw⟩ := hc
  induction l with
  | nil => intro r h; simp [findFit] at h
  | cons a rest ih =>
    intro r h f hf hcf hsz
    have ha : a.WF := hwf a (List.mem_cons_self a rest)
    have hrest : ∀ t ∈ rest, t.WF := fun t ht => hwf t (List.mem_cons_of_mem a ht)
    rw [List.pairwise_cons] at hpw
    have hlo : ∀ t ∈ rest, a.lo < t.lo := by
      intro t ht
      have := hpw.1 t ht
      unfold Sep at this
      have := ha
      unfold IPRange.WF at this
      omega
    rw [findFit] at h
    split_ifs at h with h1
    · cases hf' : findFit rest count with
      | none =>
        rw [hf'] at h
        simp only [Option.some.injEq] at h
        subst h
        rcases List.mem_cons.mp hf with rfl | hm
        · exact Nat.le_refl _
        · exact Nat.le_of_lt (hlo f hm)
      | some b =>
        rw [hf'] at h
        simp only at h
        split_ifs at h with h2 <;> simp only [Option.some.injEq] at h <;> subst h
        · rcases List.mem_cons.mp hf with rfl | hm
          · omega
          · exact ih hrest hpw.2 hf' f hm hcf hsz
        · rcases List.mem_cons.mp hf with rfl | hm
          · exact Nat.le_refl _
          · exact Nat.le_of_lt (hlo f hm)
    · cases List.mem_cons.mp hf with
      | inl he => rw [he] at hcf; omega
      | inr hm => exact ih hrest hpw.2 h f hm hcf hsz

theorem rangeSub_iff {l : List IPRange} {a b : Nat}
    (hc : Canonical l) (hab : a ≤ b) :
    rangeSub a b l = true ↔ ∀ x, a ≤ x → x ≤ b → Covers l x := by
  constructor
  · intro h x hx1 hx2
    obtain ⟨s, hs, hval⟩ := List.any_eq_true.mp h
    rw [Bool.and_eq_true, decide_eq_true_eq, decide_eq_true_eq] at hval
    exact ⟨s, hs, by omega, by omega⟩
  · intro h
    obtain ⟨s, hs, hs1, hs2⟩ := h a (Nat.le_refl a) hab
    have hbs : b ≤ s.hi := by
      by_contra hbs
      obtain ⟨s', hs', h1', h2'⟩ := h (s.hi + 1) (by omega) (by omega)
      rcases pairwise_two_of_mem hc.2 hs hs' with rfl | hsep | hsep
      · omega
      · unfold Sep at hsep
        omega
      · unfold Sep at hsep
        omega
    exact List.any_eq_true.mpr ⟨s, hs, by
      rw [Bool.and_eq_true, decide_eq_true_eq, decide_eq_true_eq]
      exact ⟨hs1, hbs⟩⟩

theorem removeRanges_covers (rs : List IPRange) (l : List IPRange) (x : Nat) :
    Covers (removeRanges l rs) x ↔
      Covers l x ∧ ∀ r ∈ rs, ¬ (r.lo ≤ x ∧ x ≤ r.hi) := by
  induction rs generalizing l with
  | nil => simp [removeRanges]
  | cons r rest ih =>
    rw [removeRanges, ih, removeRange_covers]
    constructor
    · rintro ⟨⟨h1, h2⟩, h3⟩
      refine ⟨h1, ?_⟩
      intro q hq
      rcases List.mem_cons.mp hq with rfl | hq'
      · exact h2
      · exact h3 q hq'
    · rintro ⟨h1, h2⟩
      exact ⟨⟨h1, h2 r (List.mem_cons_self r rest)⟩,
        fun q hq => h2 q (List.mem_cons_of_mem r hq)⟩

theorem removeRanges_canonical {rs : List IPRange} {l : List IPRange}
    (hl : Canonical l) (hrs : ∀ r ∈ rs, r.WF) :
    Canonical (removeRanges l rs) := by
  induction rs generalizing l with
  | nil => exact hl
  | cons r rest ih =>
    rw [removeRanges]
    exact ih
      (removeRange_canonical hl (hrs r (List.mem_cons_self r rest)))
      (fun q hq => hrs q (List.mem_cons_of_mem r hq))

theorem narrowTo_covers (l : List IPRange) (t : IPRange) (x : Nat) :
    Covers (narrowTo l t) x ↔ Covers l x ∧ t.lo ≤ x ∧ x ≤ t.hi := by
  constructor
  · rintro ⟨q, hq, hx1, hx2⟩
    rw [narrowTo, List.mem_filter] at hq
    obtain ⟨hq1, -⟩ := hq
    obtain ⟨s, hs, hsq⟩ := List.mem_map.mp hq1
    subst hsq
    simp only at hx1 hx2
    exact ⟨⟨s, hs, by omega, by omega⟩, by omega, by omega⟩
  · rintro ⟨⟨s, hs, h1, h2⟩, h3, h4⟩
    refine ⟨⟨max s.lo t.lo, min s.hi t.hi⟩, ?_, by simp; omega, by simp; omega⟩
    rw [narrowTo, List.mem_filter]
    refine ⟨List.mem_map.mpr ⟨s, hs, rfl⟩, ?_⟩
    simp only [decide_eq_true_eq]
    omega

theorem narrowTo_canonical {l : List IPRange} {t : IPRange}
    (hl : Canonical l) : Canonical (narrowTo l t) := by
  refine ⟨?_, ?_⟩
  · intro q hq
    rw [narrowTo, List.mem_filter] at hq
    exact decide_eq_true_eq.mp hq.2
  · refine List.Pairwise.filter _ ?_
    refine List.Pairwise.map _ ?_ hl.2
    intro p q hpq
    unfold Sep at hpq ⊢
    simp only
    omega

theorem seedFree_canonical {c : PoolConfig} (hv : ValidConfig c) :
    Canonical (seedFree c) := by
  have hbase : Canonical (removeRanges [c.cidr] c.reserved) :=
    removeRanges_canonical
      ⟨fun r hr => by rw [List.mem_singleton] at hr; exact hr ▸ hv.1,
        List.pairwise_singleton Sep c.cidr⟩
      (fun r hr => (hv.2.1 r hr).1)
  unfold seedFree
  cases ht : c.tenantRange with
  | none => exact hbase
  | some t => exact narrowTo_canonical hbase

theorem seedFree_reserved_excluded {c : PoolConfig} {x : Nat}
    (h : Covers (seedFree c) x) :
    ∀ r ∈ c.reserved, ¬ (r.lo ≤ x ∧ x ≤ r.hi) := by
  unfold seedFree at h
  cases ht : c.tenantRange with
  | none =>
    rw [ht] at h
    exact (removeRanges_covers _ _ _ |>.mp h).2
  | some t =>
    rw [ht] at h
    have := (narrowTo_covers _ _ _ |>.mp h).1
    exact (removeRanges_covers _ _ _ |>.mp this).2

theorem activeRanges_init (c : PoolConfig) :
    activeRanges (PoolState.init c) = [] := rfl

theorem inv_init {c : PoolConfig} (hv : ValidConfig c) :
    Inv (PoolState.init c) := by
  have hcan := seedFree_canonical hv
  refine ⟨hcan, hcan, ?_, ?_, ?_, ?_, ?_, ?_⟩ <;>
    simp only [PoolState.init, activeRanges_init]
  · intro r hr
    exact absurd hr (List.not_mem_nil r)
  · exact List.Pairwise.nil
  · exact fun x h => h
  · intro x h
    exact absurd h (covers_nil x)
  · exact fun x h => Or.inl h
  · intro x _ h
    exact absurd h (covers_nil x)

/-- Reserving a currently-free, well-formed range preserves the pool
invariant. -/
theorem inv_reserve {st : PoolState} {r : IPRange}
    (hinv : Inv st) (hr : r.WF)
    (hcov : ∀ x, r.lo ≤ x → x ≤ r.hi → Covers st.free x) :
    Inv { st with free := removeRange st.free r,
                  allocs := st.allocs ++ [⟨r, false⟩] } := by
  obtain ⟨hca, hcf, hawf, hadisj, hfsub, hasub, hpart, hfad⟩ := hinv
  have hact : activeRanges { st with
      free := removeRange st.free r
      allocs := st.allocs ++ [⟨r, false⟩] } = activeRanges st ++ [r] := by
    simp [activeRanges, List.filter_append]
  refine ⟨hca, removeRange_canonical hcf hr, ?_, ?_, ?_, ?_, ?_, ?_⟩
  · intro q hq
    rw [hact] at hq
    rcases List.mem_append.mp hq with h | h
    · exact hawf q h
    · rw [List.mem_singleton] at h
      exact h ▸ hr
  · rw [hact, List.pairwise_append]
    refine ⟨hadisj, List.pairwise_singleton _ r, ?_⟩
    intro p hp q hq
    rw [List.mem_singleton] at hq
    subst hq
    by_contra hnd
    unfold IPRange.Disj at hnd
    push_neg at hnd
    have hpwf : p.WF := hawf p hp
    have hrwf := hr
    unfold IPRange.WF at hpwf hrwf
    have hx : Covers st.free (max p.lo q.lo) := hcov _ (by omega) (by omega)
    exact hfad _ hx ⟨p, hp, by omega, by omega⟩
  · intro x hx
    have hx' : Covers (removeRange st.free r) x := hx
    rw [removeRange_covers] at hx'
    exact hfsub x hx'.1
  · intro x hx
    rw [hact] at hx
    show Covers st.allocatable x
    rcases covers_append.mp hx with h | h
    · exact hasub x h
    · rw [covers_cons] at h
      rcases h with ⟨h1, h2⟩ | h
      · exact hfsub x (hcov x h1 h2)
      · exact absurd h (covers_nil x)
  · intro x hx
    have hx' : Covers st.allocatable x := hx
    rw [hact]
    show Covers (removeRange st.free r) x ∨ _
    rcases hpart x hx' with h | h
    · by_cases hxr : r.lo ≤ x ∧ x ≤ r.hi
      · exact Or.inr (covers_append.mpr (Or.inr
          ⟨r, List.mem_singleton.mpr rfl, hxr.1, hxr.2⟩))
      · exact Or.inl (removeRange_covers _ _ _ |>.mpr ⟨h, hxr⟩)
    · exact Or.inr (covers_append.mpr (Or.inl h))
  · intro x hx hx'
    have hxf : Covers (removeRange st.free r) x := hx
    rw [hact] at hx'
    rw [removeRange_covers] at hxf
    rcases covers_append.mp hx' with h | h
    · exact hfad x hxf.1 h
    · rw [covers_cons] at h
      rcases h with ⟨h1, h2⟩ | h
      · exact hxf.2 ⟨h1, h2⟩
      · exact absurd h (covers_nil x)

theorem activeOf_mark (al : List Alloc) (r : IPRange) :
    ((al.map fun a =>
        if a.range = r then (⟨a.range, true⟩ : Alloc) else a).filter
          (fun a => !a.released)).map Alloc.range =
      ((al.filter fun a => !a.released).map Alloc.range).filter
        (fun q => decide (q ≠ r)) := by
  induction al with
  | nil => rfl
  | cons a rest ih =>
    by_cases h1 : a.range = r <;> by_cases h2 : a.released <;>
      simp [h1, h2, ih]

theorem activeRanges_release (st : PoolState) (r : IPRange) :
    activeRanges (PoolAllocator.release st r) =
      (activeRanges st).filter fun q => decide (q ≠ r) := by
  simp only [PoolAllocator.release, activeRanges]
  exact activeOf_mark st.allocs r

/-- Releasing a recorded active allocation preserves the pool
invariant. -/
theorem inv_release {st : PoolState} {r : IPRange}
    (hinv : Inv st) (hr : r ∈ activeRanges st) :
    Inv (PoolAllocator.release st r) := by
  obtain ⟨hca, hcf, hawf, hadisj, hfsub, hasub, hpart, hfad⟩ := hinv
  have hrwf : r.WF := hawf r hr
  have hact := activeRanges_release st r
  have hfr : (PoolAllocator.release st r).free = addRange st.free r := rfl
  have hal : (PoolAllocator.release st r).allocatable = st.allocatable := rfl
  refine ⟨?_, ?_, ?_, ?_, ?_, ?_, ?_, ?_⟩
  · rw [hal]
    exact hca
  · rw [hfr]
    exact addRange_canonical hcf hrwf
  · rw [hact]
    intro q hq
    exact hawf q (List.mem_of_mem_filter hq)
  · rw [hact]
    exact List.Pairwise.filter _ hadisj
  · intro x hx
    rw [hal]
    rw [hfr, addRange_covers _ _ (canonical_wf hcf) hrwf] at hx
    rcases hx with h | ⟨h1, h2⟩
    · exact hfsub x h
    · exact hasub x ⟨r, hr, h1, h2⟩
  · intro x hx
    rw [hal]
    rw [hact] at hx
    obtain ⟨q, hq, h1, h2⟩ := hx
    exact hasub x ⟨q, List.mem_of_mem_filter hq, h1, h2⟩
  · intro x hx
    rw [hal] at hx
    rw [hact, hfr, addRange_covers _ _ (canonical_wf hcf) hrwf]
    rcases hpart x hx with h | ⟨q, hq, h1, h2⟩
    · exact Or.inl (Or.inl h)
    · by_cases hqr : q = r
      · subst hqr
        exact Or.inl (Or.inr ⟨h1, h2⟩)
      · refine Or.inr ⟨q, ?_, h1, h2⟩
        rw [List.mem_filter]
        exact ⟨hq, by simp [hqr]⟩
  · intro x hx hx'
    rw [hfr, addRange_covers _ _ (canonical_wf hcf) hrwf] at hx
    rw [hact] at hx'
    obtain ⟨q, hq, h1, h2⟩ := hx'
    rw [List.mem_filter] at hq
    obtain ⟨hq1, hq2⟩ := hq
    rw [decide_eq_true_eq] at hq2
    rcases hx with h | ⟨h3, h4⟩
    · exact hfad x h ⟨q, hq1, h1, h2⟩
    · rcases pairwise_two_of_mem hadisj hr hq1 with rfl | hd | hd
      · exact hq2 rfl
      · unfold IPRange.Disj at hd
        omega
      · unfold IPRange.Disj at hd
        omega

/-- Every operation of the step relation preserves the pool invariant. -/
theorem inv_step {st st' : PoolState} (hinv : Inv st) (h : Step st st') :
    Inv st' := by
  cases h with
  | allocate count r st2 hcount hok =>
    rw [PoolAllocator.allocate.eq_def] at hok
    cases hf : findFit st.free count with
    | none => rw [hf] at hok; exact absurd hok (by simp)
    | some f =>
      rw [hf] at hok
      simp only [Except.ok.injEq, Prod.mk.injEq] at hok
      obtain ⟨hr, hst⟩ := hok
      obtain ⟨hmem, hsz⟩ := findFit_some_mem hf
      have hfwf : f.WF := (canonical_wf hinv.canFree) f hmem
      simp only [IPRange.WF, IPRange.size] at hfwf hsz
      subst hst
      refine inv_reserve hinv ?_ ?_
      · simp only [IPRange.WF]
        omega
      · intro x hx1 hx2
        simp only at hx1 hx2
        exact ⟨f, hmem, by omega, by omega⟩
  | allocatePinned a b r st2 hok =>
    rw [PoolAllocator.allocatePinned.eq_def] at hok
    split_ifs at hok with h1 h2 h3
    all_goals try exact Except.noConfusion hok
    simp only [Except.ok.injEq, Prod.mk.injEq] at hok
    obtain ⟨hr, hst⟩ := hok
    subst hst
    have hab : a ≤ b := by omega
    have hsub : rangeSub a b st.free = true := by
      rcases Bool.eq_false_or_eq_true (rangeSub a b st.free) with h | h
      · exact h
      · exact absurd h h3
    refine inv_reserve hinv (by simp [IPRange.WF]; omega) ?_
    intro x hx1 hx2
    exact (rangeSub_iff hinv.canFree hab).mp hsub x hx1 hx2
  | release r hr => exact inv_release hinv hr

/-- The invariant holds in every reachable pool state. -/
theorem inv_reachable {c : PoolConfig} {st : PoolState}
    (hv : ValidConfig c) (h : Reachable c st) : Inv st := by
  induction h with
  | refl => exact inv_init hv
  | tail _ hstep ih => exact inv_step ih hstep

/-- No operation changes the pool's allocatable space. -/
theorem step_allocatable {st st' : PoolState} (h : Step st st') :
    st'.allocatable = st.allocatable := by
  cases h with
  | allocate count r st2 hcount hok =>
    rw [PoolAllocator.allocate.eq_def] at hok
    cases hf : findFit st.free count with
    | none => rw [hf] at hok; exact Except.noConfusion hok
    | some f =>
      rw [hf] at hok
      simp only [Except.ok.injEq, Prod.mk.injEq] at hok
      rw [← hok.2]
  | allocatePinned a b r st2 hok =>
    rw [PoolAllocator.allocatePinned.eq_def] at hok
    split_ifs at hok
    all_goals try exact Except.noConfusion hok
    simp only [Except.ok.injEq, Prod.mk.injEq] at hok
    rw [← hok.2]
  | release r hr => rfl

theorem reachable_allocatable {c : PoolConfig} {st : PoolState}
    (h : Reachable c st) : st.allocatable = seedFree c := by
  induction h with
  | refl => rfl
  | tail _ hstep ih => rw [step_allocatable hstep, ih]

/-- Under the invariant, allocated + available = total. -/
theorem inv_status {st : PoolState} (hinv : Inv st) :
    (recomputeStatus st).allocatedIPs + (recomputeStatus st).availableIPs
      = (recomputeStatus st).totalIPs := by
  obtain ⟨hca, hcf, hawf, hadisj, hfsub, hasub, hpart, hfad⟩ := hinv
  have h1 : (toFinset st.allocatable).card = totalSize st.allocatable :=
    card_toFinset _ (canonical_wf hca) (hca.2.imp sep_imp_disj)
  have h2 : (toFinset st.free).card = totalSize st.free :=
    card_toFinset _ (canonical_wf hcf) (hcf.2.imp sep_imp_disj)
  have h3 : (toFinset (activeRanges st)).card = totalSize (activeRanges st) :=
    card_toFinset _ hawf hadisj
  have hset : toFinset st.allocatable =
      toFinset (activeRanges st) ∪ toFinset st.free := by
    apply Finset.ext
    intro x
    rw [Finset.mem_union, mem_toFinset, mem_toFinset, mem_toFinset]
    constructor
    · intro hx
      rcases hpart x hx with h | h
      · exact Or.inr h
      · exact Or.inl h
    · rintro (h | h)
      · exact hasub x h
      · exact hfsub x h
  have hdisj : Disjoint (toFinset (activeRanges st)) (toFinset st.free) := by
    rw [Finset.disjoint_right]
    intro x hx hx'
    rw [mem_toFinset] at hx hx'
    exact hfad x hx hx'
  simp only [recomputeStatus]
  rw [← h1, ← h2, ← h3, hset, Finset.card_union_of_disjoint hdisj]

/-- **C1**: in every pool state reachable by any sequence of allocate,
allocatePinned and release operations, the recomputed pool status
satisfies `AllocatedIPs + AvailableIPs = TotalIPs`, no reserved address
is ever counted as free or allocated, and the ranges of any two
distinct non-released allocations are disjoint. -/
theorem C1_pool_invariant (c : PoolConfig) (st : PoolState)
    (hv : ValidConfig c) (h : Reachable c st) :
    (recomputeStatus st).allocatedIPs + (recomputeStatus st).availableIPs
        = (recomputeStatus st).totalIPs ∧
    (∀ rsv ∈ c.reserved, ∀ x, rsv.lo ≤ x → x ≤ rsv.hi →
        ¬ Covers st.free x ∧ ¬ Covers (activeRanges st) x) ∧
    (activeRanges st).Pairwise IPRange.Disj := by
  have hinv := inv_reachable hv h
  have halloc := reachable_allocatable h
  refine ⟨inv_status hinv, ?_, hinv.activeDisj⟩
  intro rsv hrsv x hx1 hx2
  constructor
  · intro hc
    have hx := hinv.freeSub x hc
    rw [halloc] at hx
    exact seedFree_reserved_excluded hx rsv hrsv ⟨hx1, hx2⟩
  · intro hc
    have hx := hinv.activeSub x hc
    rw [halloc] at hx
    exact seedFree_reserved_excluded hx rsv hrsv ⟨hx1, hx2⟩

theorem witnessState_reachable : Reachable witnessConfig witnessState :=
  Relation.ReflTransGen.tail Relation.ReflTransGen.refl
    (Step.allocate (PoolState.init witnessConfig) 4 ⟨4, 7⟩ witnessState
      (by decide) rfl)

/-- Witness for C1 at a concrete reachable state. -/
theorem C1_pool_invariant_witness :
    (recomputeStatus witnessState).allocatedIPs
        + (recomputeStatus witnessState).availableIPs
        = (recomputeStatus witnessState).totalIPs ∧
    (∀ rsv ∈ witnessConfig.reserved, ∀ x, rsv.lo ≤ x → x ≤ rsv.hi →
        ¬ Covers witnessState.free x ∧ ¬ Covers (activeRanges witnessState) x) ∧
    (activeRanges witnessState).Pairwise IPRange.Disj :=
  C1_pool_invariant witnessConfig witnessState (by decide) witnessState_reachable

/-- **C6**: `release` is idempotent on every pool state whose free list
satisfies the tracker's sorted-merged invariant: releasing a range twice
equals releasing it once, and releasing an already-free range leaves the
free list unchanged.  (`release` is a total function, so it never
raises an error.) -/
theorem C6_release_idempotent (st : PoolState) (r : IPRange)
    (hc : Canonical st.free) (hr : r.WF) :
    PoolAllocator.release (PoolAllocator.release st r) r
        = PoolAllocator.release st r ∧
    ((∀ x, r.lo ≤ x → x ≤ r.hi → Covers st.free x) →
      (PoolAllocator.release st r).free = st.free) := by
  constructor
  · have hfree : addRange (addRange st.free r) r = addRange st.free r :=
      addRange_idem hc hr
    have hallocs :
        ((st.allocs.map fun a =>
            if a.range = r then (⟨a.range, true⟩ : Alloc) else a).map fun a =>
            if a.range = r then (⟨a.range, true⟩ : Alloc) else a) =
          st.allocs.map fun a =>
            if a.range = r then (⟨a.range, true⟩ : Alloc) else a := by
      rw [List.map_map]
      apply List.map_congr_left
      intro a _
      by_cases h : a.range = r <;> simp [h]
    simp only [PoolAllocator.release]
    rw [hfree, hallocs]
  · intro hcov
    simp only [PoolAllocator.release]
    exact addRange_covered_eq hc hr hcov

/-- Witness for C6: releasing the already-free range `[8, 9]` of the
concrete pool state twice. -/
theorem C6_release_idempotent_witness :
    PoolAllocator.release (PoolAllocator.release witnessState ⟨8, 9⟩) ⟨8, 9⟩
        = PoolAllocator.release witnessState ⟨8, 9⟩ ∧
    ((∀ x, (⟨8, 9⟩ : IPRange).lo ≤ x → x ≤ (⟨8, 9⟩ : IPRange).hi →
        Covers witnessState.free x) →
      (PoolAllocator.release witnessState ⟨8, 9⟩).free = witnessState.free) :=
  C6_release_idempotent witnessState ⟨8, 9⟩ (by decide) (by decide)

/-- **C7**: the fragmentation metric equals
`100 * (1 - largestFreeBlock/totalFree)` (as a floor to whole percent),
is 0 when the pool has no free space, counts exactly the share of free
addresses outside the largest contiguous free block, and always lies in
`0 – 100`. -/
theorem C7_fragmentation_percent (l : List IPRange) :
    (metrics l).fragPercent ≤ 100 ∧
    (metrics l).largestFreeBlock ≤ (metrics l).totalFree ∧
    ((metrics l).totalFree = 0 → (metrics l).fragPercent = 0) ∧
    ((metrics l).totalFree ≠ 0 →
      (metrics l).fragPercent =
        ⌊(100 : ℚ) * (1 - ((metrics l).largestFreeBlock : ℚ)
            / ((metrics l).totalFree : ℚ))⌋₊ ∧
      (metrics l).fragPercent =
        100 * ((metrics l).totalFree - (metrics l).largestFreeBlock)
          / (metrics l).totalFree) := by
  have hle : largestFree l ≤ totalSize l := largestFree_le_totalSize l
  simp only [metrics]
  refine ⟨?_, hle, ?_, ?_⟩
  · unfold fragmentationPercent
    split_ifs with h
    · omega
    · have h1 : 100 * (totalSize l - largestFree l) ≤ 100 * totalSize l := by
        apply Nat.mul_le_mul_left
        omega
      calc 100 * (totalSize l - largestFree l) / totalSize l
          ≤ 100 * totalSize l / totalSize l := Nat.div_le_div_right h1
        _ = 100 := by
          rw [Nat.mul_div_assoc 100 (dvd_refl (totalSize l)),
            Nat.div_self (Nat.pos_of_ne_zero h)]
  · intro h
    simp [fragmentationPercent, h]
  · intro h
    constructor
    · have hcast : (100 : ℚ) * (1 - (largestFree l : ℚ) / (totalSize l : ℚ))
          = ((100 * (totalSize l - largestFree l) : ℕ) : ℚ)
            / ((totalSize l : ℕ) : ℚ) := by
        have ht : ((totalSize l : ℕ) : ℚ) ≠ 0 := by
          simp only [ne_eq, Nat.cast_eq_zero]
          exact h
        field_simp
        try rw [Nat.cast_sub hle]
        try ring
      rw [fragmentationPercent, if_neg h, hcast, Nat.floor_div_nat,
        Nat.floor_natCast]
    · rw [fragmentationPercent, if_neg h]

/-- Witness for C7 at a concrete fragmented free list. -/
theorem C7_fragmentation_percent_witness :
    (metrics [⟨0, 4⟩, ⟨10, 24⟩]).fragPercent ≤ 100 ∧
    (metrics [⟨0, 4⟩, ⟨10, 24⟩]).largestFreeBlock
        ≤ (metrics [⟨0, 4⟩, ⟨10, 24⟩]).totalFree ∧
    ((metrics [⟨0, 4⟩, ⟨10, 24⟩]).totalFree = 0 →
      (metrics [⟨0, 4⟩, ⟨10, 24⟩]).fragPercent = 0) ∧
    ((metrics [⟨0, 4⟩, ⟨10, 24⟩]).totalFree ≠ 0 →
      (metrics [⟨0, 4⟩, ⟨10, 24⟩]).fragPercent =
        ⌊(100 : ℚ) * (1 - ((metrics [⟨0, 4⟩, ⟨10, 24⟩]).largestFreeBlock : ℚ)
            / ((metrics [⟨0, 4⟩, ⟨10, 24⟩]).totalFree : ℚ))⌋₊ ∧
      (metrics [⟨0, 4⟩, ⟨10, 24⟩]).fragPercent =
        100 * ((metrics [⟨0, 4⟩, ⟨10, 24⟩]).totalFree
            - (metrics [⟨0, 4⟩, ⟨10, 24⟩]).largestFreeBlock)
          / (metrics [⟨0, 4⟩, ⟨10, 24⟩]).totalFree) :=
  C7_fragmentation_percent [⟨0, 4⟩, ⟨10, 24⟩]

theorem reuseSt_reachable : Reachable fragPool reuseSt := by
  have s1 : Step (PoolState.init fragPool) fragStA :=
    Step.allocatePinned (PoolState.init fragPool)
      (ipv4 10 0 0 0) (ipv4 10 0 0 9)
      ⟨ipv4 10 0 0 0, ipv4 10 0 0 9⟩ fragStA rfl
  have s2 : Step fragStA fragStB :=
    Step.allocatePinned fragStA (ipv4 10 0 0 10) (ipv4 10 0 0 20)
      ⟨ipv4 10 0 0 10, ipv4 10 0 0 20⟩ fragStB rfl
  have s3 : Step fragStB reuseSt :=
    Step.release fragStB ⟨ipv4 10 0 0 10, ipv4 10 0 0 20⟩ (by decide)
  exact Relation.ReflTransGen.tail
    (Relation.ReflTransGen.tail
      (Relation.ReflTransGen.tail Relation.ReflTransGen.refl s1) s2) s3

/-- **C3 (amended)**: `findFit(count)` returns the smallest free range
of size ≥ `count`, ties broken by lowest start address, and `allocate`
fails with `InsufficientSpaceError` exactly when no free range of the
requested size exists.  A released range is merged into the free list
and later requests are served best-fit from the merged list; when the
space below the reclaimed range is still allocated (so the reclaimed
range cannot coalesce downwards), a request that fits inside it reuses
part of it — here, after releasing `10.0.0.10 – 10.0.0.20` with
`10.0.0.0 – 10.0.0.9` still allocated, a request for 5 addresses is
served `10.0.0.10 – 10.0.0.14`. -/
theorem C3_best_fit (st : PoolState) (count : Nat) (hc : Canonical st.free) :
    (∀ r, findFit st.free count = some r →
      r ∈ st.free ∧ count ≤ r.size ∧
      ∀ f ∈ st.free, count ≤ f.size →
        r.size ≤ f.size ∧ (f.size = r.size → r.lo ≤ f.lo)) ∧
    (PoolAllocator.allocate st count = .error .insufficientSpace ↔
      ∀ f ∈ st.free, f.size < count) ∧
    Reachable fragPool reuseSt ∧
    (⟨⟨ipv4 10 0 0 10, ipv4 10 0 0 20⟩, true⟩ : Alloc) ∈ reuseSt.allocs ∧
    PoolAllocator.allocate reuseSt 5 =
      .ok (⟨ipv4 10 0 0 10, ipv4 10 0 0 14⟩, reuseStAfter) ∧
    ipv4 10 0 0 10 ≤ ipv4 10 0 0 14 ∧ ipv4 10 0 0 14 ≤ ipv4 10 0 0 20 := by
  refine ⟨?_, ?_, reuseSt_reachable, by decide, rfl, by decide, by decide⟩
  · intro r h
    obtain ⟨hmem, hsz⟩ := findFit_some_mem h
    refine ⟨hmem, hsz, ?_⟩
    intro f hf hcf
    exact ⟨findFit_some_min h f hf hcf,
      fun hsz' => findFit_some_lo hc h f hf hcf hsz'⟩
  · rw [PoolAllocator.allocate.eq_def]
    cases hf : findFit st.free count with
    | none =>
      simp only
      constructor
      · intro _
        exact findFit_none_aux hf
      · intro _
        trivial
    | some r =>
      simp only
      constructor
      · intro h
        exact absurd h (by simp)
      · intro h
        obtain ⟨hmem, hsz⟩ := findFit_some_mem hf
        have := h r hmem
        omega

/-- Witness for C3 at the concrete coalesced pool state. -/
theorem C3_best_fit_witness :
    (∀ r, findFit fragSt2.free 5 = some r →
      r ∈ fragSt2.free ∧ 5 ≤ r.size ∧
      ∀ f ∈ fragSt2.free, 5 ≤ f.size →
        r.size ≤ f.size ∧ (f.size = r.size → r.lo ≤ f.lo)) ∧
    (PoolAllocator.allocate fragSt2 5 = .error .insufficientSpace ↔
      ∀ f ∈ fragSt2.free, f.size < 5) ∧
    Reachable fragPool reuseSt ∧
    (⟨⟨ipv4 10 0 0 10, ipv4 10 0 0 20⟩, true⟩ : Alloc) ∈ reuseSt.allocs ∧
    PoolAllocator.allocate reuseSt 5 =
      .ok (⟨ipv4 10 0 0 10, ipv4 10 0 0 14⟩, reuseStAfter) ∧
    ipv4 10 0 0 10 ≤ ipv4 10 0 0 14 ∧ ipv4 10 0 0 14 ≤ ipv4 10 0 0 20 :=
  C3_best_fit fragSt2 5 (by decide)

/-- Counterexample to C3 as stated: in pool `10.0.0.0/24` whose only
allocation `10.0.0.10 – 10.0.0.20` has been released (the spec's own §8
scenario), a subsequent request for 5 addresses — which fits inside the
reclaimed range — is served `10.0.0.0 – 10.0.0.4`, disjoint from the
reclaimed range: no part of the reclaimed range is reused. -/
theorem C3_reuse_counterexample :
    PoolAllocator.allocatePinned (PoolState.init fragPool)
        (ipv4 10 0 0 10) (ipv4 10 0 0 20)
      = .ok (⟨ipv4 10 0 0 10, ipv4 10 0 0 20⟩, fragSt1) ∧
    PoolAllocator.release fragSt1 ⟨ipv4 10 0 0 10, ipv4 10 0 0 20⟩
      = fragSt2 ∧
    5 ≤ (⟨ipv4 10 0 0 10, ipv4 10 0 0 20⟩ : IPRange).size ∧
    PoolAllocator.allocate fragSt2 5
      = .ok (⟨ipv4 10 0 0 0, ipv4 10 0 0 4⟩, fragSt3) ∧
    IPRange.Disj ⟨ipv4 10 0 0 0, ipv4 10 0 0 4⟩
      ⟨ipv4 10 0 0 10, ipv4 10 0 0 20⟩ :=
  ⟨rfl, rfl, by decide, rfl, by decide⟩

theorem mem_insertByPrio {e y : PoolEntry} :
    ∀ {l : List PoolEntry}, y ∈ insertByPrio e l → y = e ∨ y ∈ l := by
  intro l
  induction l with
  | nil =>
    intro h
    rw [insertByPrio, List.mem_singleton] at h
    exact Or.inl h
  | cons x xs ih =>
    intro h
    rw [insertByPrio] at h
    split_ifs at h
    · rcases List.mem_cons.mp h with rfl | h'
      · exact Or.inr (List.mem_cons_self _ _)
      · rcases ih h' with h'' | h''
        · exact Or.inl h''
        · exact Or.inr (List.mem_cons_of_mem x h'')
    · rcases List.mem_cons.mp h with rfl | h'
      · exact Or.inl rfl
      · exact Or.inr h'

theorem insertByPrio_sorted {e : PoolEntry} :
    ∀ {l : List PoolEntry},
      l.Pairwise (fun a b => a.priority ≤ b.priority) →
      (insertByPrio e l).Pairwise (fun a b => a.priority ≤ b.priority) := by
  intro l
  induction l with
  | nil =>
    intro _
    exact List.pairwise_singleton _ e
  | cons x xs ih =>
    intro h
    rw [List.pairwise_cons] at h
    rw [insertByPrio]
    split_ifs with hle
    · rw [List.pairwise_cons]
      refine ⟨?_, ih h.2⟩
      intro y hy
      rcases mem_insertByPrio hy with rfl | hy'
      · exact hle
      · exact h.1 y hy'
    · rw [List.pairwise_cons]
      refine ⟨?_, List.pairwise_cons.mpr h⟩
      intro y hy
      rcases List.mem_cons.mp hy with rfl | hy'
      · omega
      · have := h.1 y hy'
        omega

theorem ordered_sorted_aux (l : List PoolEntry) :
    ∀ acc, acc.Pairwise (fun a b => a.priority ≤ b.priority) →
      (l.foldl (fun acc e => insertByPrio e acc) acc).Pairwise
        (fun a b => a.priority ≤ b.priority) := by
  induction l with
  | nil => intro acc h; exact h
  | cons e rest ih =>
    intro acc h
    exact ih (insertByPrio e acc) (insertByPrio_sorted h)

/-- The selector's try-order is sorted by ascending priority. -/
theorem ordered_sorted (l : List PoolEntry) :
    (ordered l).Pairwise (fun a b => a.priority ≤ b.priority) :=
  ordered_sorted_aux l [] List.Pairwise.nil

theorem filter_insertByPrio_ne {e : PoolEntry} {p : Int} (hne : e.priority ≠ p) :
    ∀ (l : List PoolEntry),
      (insertByPrio e l).filter (fun x => decide (x.priority = p)) =
        l.filter (fun x => decide (x.priority = p)) := by
  intro l
  induction l with
  | nil => simp [insertByPrio, hne]
  | cons x xs ih =>
    rw [insertByPrio]
    split_ifs with hle
    · by_cases hx : x.priority = p <;> simp [List.filter_cons, hx, ih]
    · simp [List.filter_cons, hne]

theorem filter_insertByPrio_eq {e : PoolEntry} {p : Int} (heq : e.priority = p) :
    ∀ (l : List PoolEntry),
      l.Pairwise (fun a b => a.priority ≤ b.priority) →
      (insertByPrio e l).filter (fun x => decide (x.priority = p)) =
        l.filter (fun x => decide (x.priority = p)) ++ [e] := by
  intro l
  induction l with
  | nil => simp [insertByPrio, heq]
  | cons x xs ih =>
    intro hs
    rw [List.pairwise_cons] at hs
    rw [insertByPrio]
    split_ifs with hle
    · by_cases hx : x.priority = p <;>
        simp [List.filter_cons, hx, ih hs.2]
    · have hxgt : p < x.priority := by omega
      have hxs : ∀ y ∈ x :: xs, ¬ y.priority = p := by
        intro y hy
        rcases List.mem_cons.mp hy with rfl | hy'
        · omega
        · have := hs.1 y hy'
          omega
      have hnil : List.filter (fun y => decide (y.priority = p)) (x :: xs)
          = [] := by
        rw [List.filter_eq_nil_iff]
        intro y hy
        simpa using hxs y hy
      rw [hnil, List.filter_cons_of_pos (by simp [heq]), hnil]
      rfl

theorem ordered_stable_aux (l : List PoolEntry) (p : Int) :
    ∀ acc, acc.Pairwise (fun a b => a.priority ≤ b.priority) →
      (l.foldl (fun acc e => insertByPrio e acc) acc).filter
          (fun x => decide (x.priority = p)) =
        acc.filter (fun x => decide (x.priority = p)) ++
          l.filter (fun x => decide (x.priority = p)) := by
  induction l with
  | nil => intro acc _; simp
  | cons e rest ih =>
    intro acc hacc
    rw [List.foldl_cons, ih (insertByPrio e acc) (insertByPrio_sorted hacc)]
    by_cases he : e.priority = p
    · rw [filter_insertByPrio_eq he acc hacc,
        List.filter_cons_of_pos (by simp [he]), List.append_assoc]
      rfl
    · rw [filter_insertByPrio_ne he acc,
        List.filter_cons_of_neg (by simp [he])]

/-- Stability: within one priority value, the selector keeps the
declaration order of the pool list. -/
theorem ordered_stable (l : List PoolEntry) (p : Int) :
    (ordered l).filter (fun x => decide (x.priority = p)) =
      l.filter (fun x => decide (x.priority = p)) := by
  have := ordered_stable_aux l p [] List.Pairwise.nil
  simpa [ordered] using this

theorem allocate_error_shape {st : PoolState} {count : Nat} {e : AllocError}
    (h : PoolAllocator.allocate st count = .error e) :
    e = .insufficientSpace := by
  rw [PoolAllocator.allocate.eq_def] at h
  cases hf : findFit st.free count with
  | none =>
    rw [hf] at h
    simp only [Except.error.injEq] at h
    exact h.symm
  | some r =>
    rw [hf] at h
    exact Except.noConfusion h

theorem tryPoolsCount_ok {count : Nat} {n : String} {r : IPRange}
    {stres : PoolState} :
    ∀ {l : List PoolEntry}, tryPoolsCount l count = .ok (n, r, stres) →
      ∃ pre e post, l = pre ++ e :: post ∧ e.name = n ∧
        PoolAllocator.allocate e.state count = .ok (r, stres) ∧
        ∀ p ∈ pre, PoolAllocator.allocate p.state count
          = .error .insufficientSpace := by
  intro l
  induction l with
  | nil => intro h; exact Except.noConfusion h
  | cons e rest ih =>
    intro h
    rw [tryPoolsCount] at h
    cases ha : PoolAllocator.allocate e.state count with
    | ok res =>
      rw [ha] at h
      simp only [Except.ok.injEq, Prod.mk.injEq] at h
      obtain ⟨h1, h2, h3⟩ := h
      refine ⟨[], e, rest, rfl, h1, ?_, ?_⟩
      · cases res with
        | mk r' st'' => simp only at h2 h3; rw [ha, h2, h3]
      · intro p hp
        exact absurd hp (List.not_mem_nil p)
    | error err =>
      rw [ha] at h
      cases ht : tryPoolsCount rest count with
      | ok res =>
        rw [ht] at h
        simp only [Except.ok.injEq] at h
        obtain ⟨pre, e', post, hsplit, hname, hok, hfail⟩ := ih (h ▸ ht)
        refine ⟨e :: pre, e', post, by rw [hsplit]; rfl, hname, hok, ?_⟩
        intro p hp
        rcases List.mem_cons.mp hp with rfl | hp'
        · rw [allocate_error_shape ha] at ha
          exact ha
        · exact hfail p hp'
      | error names =>
        rw [ht] at h
        exact Except.noConfusion h

theorem tryPoolsCount_error {count : Nat} :
    ∀ {l : List PoolEntry} {names : List String},
      tryPoolsCount l count = .error names →
      names = l.map PoolEntry.name ∧
        ∀ p ∈ l, PoolAllocator.allocate p.state count
          = .error .insufficientSpace := by
  intro l
  induction l with
  | nil =>
    intro names h
    rw [tryPoolsCount] at h
    simp only [Except.error.injEq] at h
    exact ⟨h.symm, fun p hp => absurd hp (List.not_mem_nil p)⟩
  | cons e rest ih =>
    intro names h
    rw [tryPoolsCount] at h
    cases ha : PoolAllocator.allocate e.state count with
    | ok res => rw [ha] at h; exact Except.noConfusion h
    | error err =>
      rw [ha] at h
      cases ht : tryPoolsCount rest count with
      | ok res => rw [ht] at h; exact Except.noConfusion h
      | error ns =>
        rw [ht] at h
        simp only [Except.error.injEq] at h
        obtain ⟨hns, hall⟩ := ih ht
        subst h
        refine ⟨by rw [hns]; rfl, ?_⟩
        intro p hp
        rcases List.mem_cons.mp hp with rfl | hp'
        · rw [allocate_error_shape ha] at ha
          exact ha
        · exact hall p hp'

theorem mem_insertByPrio_iff {e y : PoolEntry} :
    ∀ {l : List PoolEntry}, y ∈ insertByPrio e l ↔ y = e ∨ y ∈ l := by
  intro l
  induction l with
  | nil => simp [insertByPrio]
  | cons x xs ih =>
    rw [insertByPrio]
    split_ifs
    · rw [List.mem_cons, ih, List.mem_cons]
      tauto
    · simp [List.mem_cons]

theorem mem_ordered_aux (l : List PoolEntry) :
    ∀ (acc : List PoolEntry) (y : PoolEntry),
      y ∈ l.foldl (fun acc e => insertByPrio e acc) acc ↔
        y ∈ acc ∨ y ∈ l := by
  induction l with
  | nil => simp
  | cons e rest ih =>
    intro acc y
    rw [List.foldl_cons, ih (insertByPrio e acc) y, mem_insertByPrio_iff,
      List.mem_cons]
    tauto

/-- The selector's try-order contains exactly the given pools. -/
theorem mem_ordered (l : List PoolEntry) (y : PoolEntry) :
    y ∈ ordered l ↔ y ∈ l := by
  rw [ordered, mem_ordered_aux l [] y]
  simp

/-- **C4**: the selector tries pools in ascending priority value (equal
priorities in declaration order), calling `allocate` on each and
stopping at the first success; on total exhaustion it fails with
`PoolExhaustedError` naming every attempted pool.  With pool `A`
(priority 0, no free space) and pool `B` (priority 1, free), a count
request is served from `B` and `AllocatedBy` is `"B"`. -/
theorem C4_priority_selector (pools : List PoolEntry) (count : Nat) :
    (ordered pools).Pairwise (fun a b => a.priority ≤ b.priority) ∧
    (∀ p : Int, (ordered pools).filter (fun x => decide (x.priority = p)) =
      pools.filter (fun x => decide (x.priority = p))) ∧
    (∀ y, y ∈ ordered pools ↔ y ∈ pools) ∧
    (∀ n r stres, selectAllocate pools count = .ok (n, r, stres) →
      ∃ pre e post, ordered pools = pre ++ e :: post ∧ e.name = n ∧
        PoolAllocator.allocate e.state count = .ok (r, stres) ∧
        ∀ p ∈ pre, PoolAllocator.allocate p.state count
          = .error .insufficientSpace) ∧
    (∀ e, selectAllocate pools count = .error e →
      ∃ names, e = .poolExhausted names ∧
        names = (ordered pools).map PoolEntry.name ∧
        ∀ p ∈ pools, PoolAllocator.allocate p.state count
          = .error .insufficientSpace) ∧
    selectAllocate abPools 5 = .ok ("B", ⟨100, 104⟩, poolBAfter) ∧
    (reconcile (.count 5) abPending).status.allocatedBy = some "B" ∧
    (reconcile (.count 5) abPending).status.phase = .allocated := by
  refine ⟨ordered_sorted pools, ordered_stable pools, mem_ordered pools,
    ?_, ?_, rfl, rfl, rfl⟩
  · intro n r stres h
    rw [selectAllocate.eq_def] at h
    cases ht : tryPoolsCount (ordered pools) count with
    | ok res =>
      rw [ht] at h
      simp only [Except.ok.injEq] at h
      exact tryPoolsCount_ok (h ▸ ht)
    | error names =>
      rw [ht] at h
      exact Except.noConfusion h
  · intro e h
    rw [selectAllocate.eq_def] at h
    cases ht : tryPoolsCount (ordered pools) count with
    | ok res =>
      rw [ht] at h
      exact Except.noConfusion h
    | error names =>
      rw [ht] at h
      simp only [Except.error.injEq] at h
      obtain ⟨hnames, hall⟩ := tryPoolsCount_error ht
      refine ⟨names, h.symm, hnames, ?_⟩
      intro p hp
      exact hall p ((mem_ordered pools p).mpr hp)

/-- Witness for C4 at the concrete two-pool scenario. -/
theorem C4_priority_selector_witness :
    (ordered abPools).Pairwise (fun a b => a.priority ≤ b.priority) ∧
    (∀ p : Int, (ordered abPools).filter (fun x => decide (x.priority = p)) =
      abPools.filter (fun x => decide (x.priority = p))) ∧
    (∀ y, y ∈ ordered abPools ↔ y ∈ abPools) ∧
    (∀ n r stres, selectAllocate abPools 5 = .ok (n, r, stres) →
      ∃ pre e post, ordered abPools = pre ++ e :: post ∧ e.name = n ∧
        PoolAllocator.allocate e.state 5 = .ok (r, stres) ∧
        ∀ p ∈ pre, PoolAllocator.allocate p.state 5
          = .error .insufficientSpace) ∧
    (∀ e, selectAllocate abPools 5 = .error e →
      ∃ names, e = .poolExhausted names ∧
        names = (ordered abPools).map PoolEntry.name ∧
        ∀ p ∈ abPools, PoolAllocator.allocate p.state 5
          = .error .insufficientSpace) ∧
    selectAllocate abPools 5 = .ok ("B", ⟨100, 104⟩, poolBAfter) ∧
    (reconcile (.count 5) abPending).status.allocatedBy = some "B" ∧
    (reconcile (.count 5) abPending).status.phase = .allocated :=
  C4_priority_selector abPools 5

/-- **C2**: reconciliation of the `Pending → Allocated` transition is
idempotent: running `reconcile` twice equals running it once, and when
the allocation already has a recorded range, the rerun records the very
same range and leaves every pool's state (hence the free lists)
untouched — no additional addresses are reserved. -/
theorem C2_transition_idempotent :
    (∀ req st, reconcile req (reconcile req st) = reconcile req st) ∧
    (∀ req st r, st.status.phase = .pending → st.status.range = some r →
      (reconcile req st).status.range = some r ∧
      (reconcile req st).pools = st.pools ∧
      (reconcile req st).status.phase = .allocated) := by
  constructor
  · intro req st
    obtain ⟨pools, ph, rg, cr, ab⟩ := st
    cases ph with
    | pending =>
      cases rg with
      | some r => rfl
      | none =>
        cases hrun : runRequest pools req with
        | ok res =>
          obtain ⟨nm, r, pools'⟩ := res
          have h1 : reconcile req ⟨pools, .pending, none, cr, ab⟩
              = ⟨pools', .allocated, some r, none, some nm⟩ := by
            rw [reconcile.eq_def]
            simp only
            rw [hrun]
          rw [h1]
          rfl
        | error e =>
          cases htr : transientError e with
          | true =>
            have h1 : reconcile req ⟨pools, .pending, none, cr, ab⟩
                = ⟨pools, .pending, none, some "PoolExhausted", ab⟩ := by
              rw [reconcile.eq_def]
              simp only
              rw [hrun]
              simp [htr]
            rw [h1]
            have h2 : reconcile req ⟨pools, .pending, none,
                some "PoolExhausted", ab⟩
                = ⟨pools, .pending, none, some "PoolExhausted", ab⟩ := by
              rw [reconcile.eq_def]
              simp only
              rw [hrun]
              simp [htr]
            rw [h2]
          | false =>
            have h1 : reconcile req ⟨pools, .pending, none, cr, ab⟩
                = ⟨pools, .failed, none, some (reasonOf e), ab⟩ := by
              rw [reconcile.eq_def]
              simp only
              rw [hrun]
              simp [htr]
            rw [h1]
            rfl
    | allocated => rfl
    | released => rfl
    | failed => rfl
  · intro req st r hp hr
    rw [reconcile.eq_def, hp, hr]
    exact ⟨hr, rfl, rfl⟩

/-- Witness for C2: a pending allocation with recorded range `[1, 2]`
is re-reconciled without touching the pools and keeps its range. -/
theorem C2_transition_idempotent_witness :
    (reconcile (.count 1) ⟨[], ⟨.pending, some ⟨1, 2⟩, none, none⟩⟩).status.range
        = some ⟨1, 2⟩ ∧
    (reconcile (.count 1) ⟨[], ⟨.pending, some ⟨1, 2⟩, none, none⟩⟩).pools
        = ([] : List PoolEntry) ∧
    (reconcile (.count 1) ⟨[], ⟨.pending, some ⟨1, 2⟩, none, none⟩⟩).status.phase
        = .allocated :=
  C2_transition_idempotent.2 (.count 1)
    ⟨[], ⟨.pending, some ⟨1, 2⟩, none, none⟩⟩ ⟨1, 2⟩ rfl rfl

/-- **C5**: the controller classifies every allocation error into
exactly one of two outcomes: `InsufficientSpaceError` and
`PoolExhaustedError` are transient — the allocation stays `Pending`
with condition reason `PoolExhausted` and is retried; the four
remaining errors (`InvalidAddressError`, `RangeOrderError`,
`RangeConflictError`, `OutOfRangeError`) are terminal — the allocation
moves to `Failed`.  In particular a pinned request for
`10.0.0.5 – 10.0.0.10` with `10.0.0.8` already allocated fails with
`RangeConflictError` and ends `Failed`, not `Pending`. -/
theorem C5_error_classification :
    (∀ e, transientError e = true ↔
      (e = .insufficientSpace ∨ ∃ names, e = .poolExhausted names)) ∧
    (∀ e, transientError e = false ↔
      (e = .invalidAddress ∨ e = .rangeOrder ∨ e = .rangeConflict ∨
        e = .outOfRange)) ∧
    (∀ req st e, st.status.phase = .pending → st.status.range = none →
      runRequest st.pools req = .error e →
      (transientError e = true →
        (reconcile req st).status.phase = .pending ∧
        (reconcile req st).status.conditionReason = some "PoolExhausted") ∧
      (transientError e = false →
        (reconcile req st).status.phase = .failed)) ∧
    runRequest conflictPools (.pinned (ipv4 10 0 0 5) (ipv4 10 0 0 10))
      = .error .rangeConflict ∧
    (reconcile (.pinned (ipv4 10 0 0 5) (ipv4 10 0 0 10))
        conflictPending).status.phase = .failed ∧
    (reconcile (.pinned (ipv4 10 0 0 5) (ipv4 10 0 0 10))
        conflictPending).status.phase ≠ .pending := by
  refine ⟨?_, ?_, ?_, rfl, rfl, by decide⟩
  · intro e
    cases e <;> simp [transientError]
  · intro e
    cases e <;> simp [transientError]
  · intro req st e hp hr hrun
    constructor
    · intro htr
      rw [reconcile.eq_def, hp, hr, hrun]
      simp only [htr, if_true]
      exact ⟨hp, trivial⟩
    · intro htr
      rw [reconcile.eq_def, hp, hr, hrun]
      simp only [htr]
      rfl

/-- **C9**: `IPAllocationPhase` ranges over exactly the four strings
`"Pending"`, `"Allocated"`, `"Released"`, `"Failed"` and
`IPAllocationType` over exactly `"nodes"`, `"loadbalancer"`, character
for character, injectively, under field names `phase` and `type`. -/
theorem C9_json_enum_contract :
    (∀ p : IPAllocationPhase,
      p.jsonValue ∈ (["Pending", "Allocated", "Released", "Failed"] :
        List String)) ∧
    (∀ v ∈ (["Pending", "Allocated", "Released", "Failed"] : List String),
      ∃ p : IPAllocationPhase, p.jsonValue = v) ∧
    (∀ p q : IPAllocationPhase, p.jsonValue = q.jsonValue → p = q) ∧
    (∀ t : IPAllocationType,
      t.jsonValue ∈ (["nodes", "loadbalancer"] : List String)) ∧
    (∀ v ∈ (["nodes", "loadbalancer"] : List String),
      ∃ t : IPAllocationType, t.jsonValue = v) ∧
    (∀ t u : IPAllocationType, t.jsonValue = u.jsonValue → t = u) ∧
    phaseFieldName = "phase" ∧ typeFieldName = "type" := by
  refine ⟨?_, ?_, ?_, ?_, ?_, ?_, rfl, rfl⟩
  · intro p
    cases p <;> simp [IPAllocationPhase.jsonValue]
  · intro v hv
    simp only [List.mem_cons, List.not_mem_nil, or_false] at hv
    rcases hv with rfl | rfl | rfl | rfl
    · exact ⟨.pending, rfl⟩
    · exact ⟨.allocated, rfl⟩
    · exact ⟨.released, rfl⟩
    · exact ⟨.failed, rfl⟩
  · intro p q h
    cases p <;> cases q <;> first | rfl | (exfalso; simp [IPAllocationPhase.jsonValue] at h)
  · intro t
    cases t <;> simp [IPAllocationType.jsonValue]
  · intro v hv
    simp only [List.mem_cons, List.not_mem_nil, or_false] at hv
    rcases hv with rfl | rfl
    · exact ⟨.nodes, rfl⟩
    · exact ⟨.loadbalancer, rfl⟩
  · intro t u h
    cases t <;> cases u <;> first | rfl | (exfalso; simp [IPAllocationType.jsonValue] at h)

/-- Counterexample to C8 as stated: the concrete request `bothSpec`
sets both `Count` (5) and `PinnedRange` (`10.0.0.5 – 10.0.0.10`), yet
it passes the source schema's declarative validation and resolves to a
pinned request (the `Count` is ignored) — it is not rejected. -/
theorem C8_both_fields_counterexample :
    bothSpec.count = some 5 ∧
    bothSpec.pinnedRange = some ⟨"10.0.0.5", "10.0.0.10"⟩ ∧
    validIPAllocationSpec bothSpec = true ∧
    resolveShape 5 bothSpec = .pinnedShape ⟨"10.0.0.5", "10.0.0.10"⟩ := by
  refine ⟨rfl, rfl, by decide, rfl⟩

/-- **C8 (amended)**: `Count` and `PinnedRange` are both optional and
the schema enforces no mutual exclusion.  When `PinnedRange` is set the
request is processed as a pinned request and any `Count` is ignored;
when only `Count` is set it is used; when neither is set the pool
default applies.  A request with both fields set is valid, not
rejected. -/
theorem C8_request_shape (d : Int) (s : IPAllocationSpec) :
    (∀ p, s.pinnedRange = some p → resolveShape d s = .pinnedShape p) ∧
    (s.pinnedRange = none → s.count = none →
      resolveShape d s = .countShape d) ∧
    (∀ c, s.pinnedRange = none → s.count = some c →
      resolveShape d s = .countShape c) ∧
    validIPAllocationSpec bothSpec = true := by
  refine ⟨?_, ?_, ?_, by decide⟩
  · intro p hp
    rw [resolveShape.eq_def, hp]
  · intro hp hc
    rw [resolveShape.eq_def, hp]
    simp [hc]
  · intro c hp hc
    rw [resolveShape.eq_def, hp]
    simp [hc]

/-- Witness for C8 at the concrete both-fields request. -/
theorem C8_request_shape_witness :
    (∀ p, bothSpec.pinnedRange = some p →
      resolveShape 5 bothSpec = .pinnedShape p) ∧
    (bothSpec.pinnedRange = none → bothSpec.count = none →
      resolveShape 5 bothSpec = .countShape 5) ∧
    (∀ c, bothSpec.pinnedRange = none → bothSpec.count = some c →
      resolveShape 5 bothSpec = .countShape c) ∧
    validIPAllocationSpec bothSpec = true :=
  C8_request_shape 5 bothSpec

theorem slice_eq_of_append {pre sub post : List Char} :
    ((pre ++ sub ++ post).drop pre.length).take sub.length = sub := by
  rw [List.append_assoc, List.drop_left, List.take_left]

theorem append_of_slice_eq {s sub : List Char} {j : Nat}
    (h : (s.drop j).take sub.length = sub) :
    s.take j ++ sub ++ s.drop (j + sub.length) = s := by
  conv_rhs => rw [← List.take_append_drop j s]
  rw [List.append_assoc]
  congr 1
  conv_rhs => rw [← List.take_append_drop sub.length (s.drop j)]
  rw [h, List.drop_drop]

theorem containsAt_iff (s sub : List Char) :
    ∀ i, containsAt s sub i = true ↔
      ∃ j, i ≤ j ∧ j + sub.length ≤ s.length ∧
        (s.drop j).take sub.length = sub := by
  have main : ∀ k i, s.length + 1 - i ≤ k →
      (containsAt s sub i = true ↔
        ∃ j, i ≤ j ∧ j + sub.length ≤ s.length ∧
          (s.drop j).take sub.length = sub) := by
    intro k
    induction k with
    | zero =>
      intro i hi
      rw [containsAt.eq_def]
      rw [if_neg (by omega)]
      simp only [Bool.false_eq_true, false_iff]
      rintro ⟨j, hij, hb, -⟩
      omega
    | succ k ih =>
      intro i hi
      rw [containsAt.eq_def]
      split_ifs with hcond heq
      · simp only [true_iff]
        exact ⟨i, Nat.le_refl i, by omega, heq⟩
      · rw [ih (i + 1) (by omega)]
        constructor
        · rintro ⟨j, hij, hb, hs⟩
          exact ⟨j, by omega, hb, hs⟩
        · rintro ⟨j, hij, hb, hs⟩
          have hne : i ≠ j := by
            rintro rfl
            exact heq hs
          exact ⟨j, by omega, hb, hs⟩
      · simp only [Bool.false_eq_true, false_iff]
        rintro ⟨j, hij, hb, -⟩
        omega
  intro i
  exact main (s.length + 1 - i) i (Nat.le_refl _)

/-- **C10**: the source helper `contains(s, substr)` returns true
exactly when `substr` occurs as a contiguous substring of `s` (the
empty string is contained in every string, including the empty one) —
i.e. it decides list-infix occurrence, the standard substring test. -/
theorem C10_contains_substring (s sub : List Char) :
    (containsGo s sub = true ↔ ∃ pre post, pre ++ sub ++ post = s) ∧
    containsGo s [] = true := by
  have main : ∀ t : List Char,
      containsGo s t = true ↔ ∃ pre post, pre ++ t ++ post = s := by
    intro t
    simp only [containsGo, Bool.and_eq_true, Bool.or_eq_true,
      decide_eq_true_eq]
    constructor
    · rintro ⟨hlen, h | ⟨hpos, hat⟩⟩
      · exact ⟨[], [], by rw [h]; simp⟩
      · obtain ⟨j, -, hb, hs⟩ := (containsAt_iff s t 0).mp hat
        exact ⟨s.take j, s.drop (j + t.length), append_of_slice_eq hs⟩
    · rintro ⟨pre, post, hsplit⟩
      have hlen : t.length ≤ s.length := by
        rw [← hsplit]
        simp
        omega
      refine ⟨hlen, ?_⟩
      by_cases hst : s = t
      · exact Or.inl hst
      · refine Or.inr ⟨?_, ?_⟩
        · cases hs : s with
          | nil =>
            exfalso
            rw [hs] at hlen
            simp at hlen
            rw [hs] at hsplit
            simp [hlen] at hsplit
            exact hst (by rw [hs, hlen])
          | cons c cs => simp
        · rw [containsAt_iff]
          refine ⟨pre.length, Nat.zero_le _, ?_, ?_⟩
          · rw [← hsplit]
            simp
          · rw [← hsplit]
            exact slice_eq_of_append
  refine ⟨main sub, ?_⟩
  rw [main []]
  exact ⟨s, [], by simp⟩

end Butler
